import Mathlib

/-!
Shallow embedding of `src/coap/option.py` (a Python 2 module): the CoAP
option-block codec.  Byte strings are modelled as `List Nat` (each entry the
`ord` of one character; encoders only ever emit values < 256).  Python
exceptions are modelled with `Except`.  The dict `self._options`, which maps
an option number to the list of options carrying that number, is modelled as
an association list in insertion order (Python dicts preserve insertion
order).
-/

/-- Modelled from the spec: the module does `from constants import *` and
`constants.py` is not part of the sources.  The numeric values below are the
ones given by the option-registry comments in `option.py` (e.g. `11: Uri-Path`)
and by the spec. -/
def URI_PATH : Nat := 11

/-- Modelled from the spec: Uri-Query option number (registry comment `15`). -/
def URI_QUERY : Nat := 15

/-- Modelled from the spec: Location-Path option number (registry comment `8`). -/
def LOCATION_PATH : Nat := 8

/-- Modelled from the spec: Content-Format option number (registry comment `12`). -/
def CONTENT_FORMAT : Nat := 12

/-- Modelled from the spec: Observe option number (registry comment `6`). -/
def OBSERVE : Nat := 6

/-- Modelled from the spec: Accept option number (registry comment `17`). -/
def ACCEPT : Nat := 17

/-- Modelled from the spec: Block2 option number (registry comment `23`). -/
def BLOCK2 : Nat := 23

/-- Modelled from the spec: Block1 option number (registry comment `27`). -/
def BLOCK1 : Nat := 27

/-- Modelled from the spec: ETag option number.  The registry table of
`option.py` does not list ETag; the standard CoAP number 4 is used.  No
theorem below depends on the exact value. -/
def ETAG : Nat := 4

/-- The value stored in an option object.  One constructor per option class
of the source (`OpaqueOption`, `StringOption`, `UintOption`, `BlockOption`).
`uintNone` models a `UintOption` whose dynamically typed `value` attribute
holds Python `None`; the only way the source produces one is
`_setContentFormat(None)`, which calls `UintOption(number, None)`. -/
inductive OptVal where
  | opaq (data : List Nat)
  | str (data : List Nat)
  | uint (v : Nat)
  | uintNone
  | block (num : Nat) (m : Bool) (szx : Nat)
  deriving DecidableEq, Repr

/-- An option object: its `number` attribute and its `value` attribute. -/
structure Opt where
  number : Nat
  value : OptVal
  deriving DecidableEq, Repr

/-- The four option classes, as used by the `option_formats` registry. -/
inductive OptKind where
  | opaq
  | str
  | uint
  | block
  deriving DecidableEq, Repr

/-- Helper for `bitLength`: structural recursion on a fuel bound so that the
function evaluates inside the kernel (the fuel is always sufficient, see
`bitLength_eq`). -/
def bitLengthAux : Nat → Nat → Nat
  | 0, _ => 0
  | fuel + 1, n => if n = 0 then 0 else bitLengthAux fuel (n / 2) + 1

/-- Python `int.bit_length()`: the number of binary digits of `v`, 0 for 0. -/
def bitLength (v : Nat) : Nat := bitLengthAux v v

/-- `struct.pack("!L", v)`: the 4-byte big-endian representation of `v`
(the Python call raises `struct.error` for `v` outside `[0, 2^32)`; callers
guard with that hypothesis where it matters). -/
def packL (v : Nat) : List Nat :=
  [v / 16777216 % 256, v / 65536 % 256, v / 256 % 256, v % 256]

/-- `rawdata.lstrip(chr(0))`: drop leading zero bytes. -/
def lstripZero : List Nat → List Nat
  | [] => []
  | b :: bs => if b = 0 then lstripZero bs else b :: bs

/-- `UintOption.encode`: `struct.pack("!L", value).lstrip(chr(0))`. -/
def UintOption.encode (value : Nat) : List Nat := lstripZero (packL value)

/-- `UintOption.decode`: big-endian accumulation `value = value * 256 + byte`. -/
def UintOption.decode (rawdata : List Nat) : Nat :=
  rawdata.foldl (fun value byte => value * 256 + byte) 0

/-- `UintOption._length`: `(value.bit_length() - 1) // 8 + 1` for positive
values, `0` for value `0`. -/
def UintOption.length (value : Nat) : Nat :=
  if 0 < value then (bitLength value - 1) / 8 + 1 else 0

/-- `BlockOption.encode`, packing step: `(num << 4) + (m * 0x08) + szx`
(`m` is a Python bool, so `m * 0x08` is 8 or 0). -/
def BlockOption.pack (num : Nat) (m : Bool) (szx : Nat) : Nat :=
  num * 16 + (if m then 8 else 0) + szx

/-- `BlockOption.encode`: pack the tuple into one integer, then encode it
exactly like `UintOption.encode`. -/
def BlockOption.encode (num : Nat) (m : Bool) (szx : Nat) : List Nat :=
  UintOption.encode (BlockOption.pack num m szx)

/-- `BlockOption._length`: `(num.bit_length() + 3) / 8 + 1` — computed from
the `num` field alone (Python 2 `/` on ints is floor division). -/
def BlockOption.length (num : Nat) : Nat :=
  (bitLength num + 3) / 8 + 1

/-- Error kinds raised while encoding: `ValueError("Value out of range.")`
from `writeExtendedFieldValue` (the spec's RangeError kind), `struct.error`
from `struct.pack("!L", v)` with `v` outside `[0, 2^32)`, and the
`AttributeError`/`TypeError` hit when a `UintOption` holds `None`. -/
inductive EncErr where
  | rangeError
  | packError
  | typeError
  deriving DecidableEq, Repr

/-- Error kinds raised while decoding: `IndexError` from `rawdata[0]` on an
empty string, `struct.error` from `struct.unpack('!H', ...)` on fewer than
2 bytes, and `ValueError("Value out of range.")` for a field nibble of 15. -/
inductive DecErr where
  | indexError
  | structError
  | valueError
  deriving DecidableEq, Repr

/-- Per-class `encode` dispatch: `option.encode()`.  Opaque and String
options return their value bytes unchanged; Uint and Block options pack via
`struct.pack("!L", ...)`, which fails for integers outside `[0, 2^32)`;
a `UintOption` holding `None` fails inside `struct.pack`. -/
def valueEncode : OptVal → Except EncErr (List Nat)
  | .opaq data => .ok data
  | .str data => .ok data
  | .uint v => if v < 4294967296 then .ok (UintOption.encode v) else .error .packError
  | .uintNone => .error .typeError
  | .block num m szx =>
    if BlockOption.pack num m szx < 4294967296 then .ok (BlockOption.encode num m szx)
    else .error .packError

/-- Per-class `length` property dispatch: byte count for Opaque and String,
`UintOption._length` for Uint, `BlockOption._length` for Block; a
`UintOption` holding `None` raises (`None.bit_length()`). -/
def valueLength : OptVal → Except EncErr Nat
  | .opaq data => .ok data.length
  | .str data => .ok data.length
  | .uint v => .ok (UintOption.length v)
  | .uintNone => .error .typeError
  | .block num _ _ => .ok (BlockOption.length num)

/-- Per-class `decode` dispatch: `option.decode(rawdata)`.  Opaque and
String store the raw bytes; Uint accumulates big-endian; Block unpacks
`num = as_integer >> 4`, `m = bool(as_integer & 0x08)`,
`szx = as_integer & 0x07` (written as division and remainder, which agree
with the bit operations on all naturals). -/
def kindDecode (k : OptKind) (rawdata : List Nat) : OptVal :=
  match k with
  | .opaq => .opaq rawdata
  | .str => .str rawdata
  | .uint => .uint (UintOption.decode rawdata)
  | .block =>
    let a := UintOption.decode rawdata
    .block (a / 16) (a / 8 % 2 == 1) (a % 8)

/-- The `option_formats` dictionary: option number to option class, with
`OpaqueOption` as the `.get` default for unlisted numbers. -/
def option_formats (n : Nat) : OptKind :=
  match n with
  | 3 => .str       -- If-Match
  | 6 => .uint      -- Observe
  | 7 => .uint      -- Uri-Port
  | 8 => .str       -- Location-Path
  | 11 => .str      -- Uri-Path
  | 12 => .uint     -- Content-Format
  | 14 => .uint     -- Max-Age
  | 15 => .str      -- Uri-Query
  | 17 => .uint     -- Accept
  | 20 => .str      -- Location-Query
  | 23 => .block    -- Block2
  | 27 => .block    -- Block1
  | 28 => .uint     -- Size2
  | 35 => .str      -- Proxy-Uri
  | 39 => .str      -- Proxy-Scheme
  | 60 => .uint     -- Size1
  | _ => .opaq

/-- The `Options` container: `self._options`, a dict from option number to
the list of options with that number, kept as an association list in
insertion order. -/
structure Options where
  buckets : List (Nat × List Opt)
  deriving DecidableEq, Repr

/-- `Options.__init__`: the empty dict. -/
def emptyOptions : Options := ⟨[]⟩

/-- `self._options.setdefault(option.number, []).append(option)`: append to
the existing bucket, or create a new bucket at the end of the dict. -/
def addToBuckets (n : Nat) (opt : Opt) : List (Nat × List Opt) → List (Nat × List Opt)
  | [] => [(n, [opt])]
  | (k, b) :: rest =>
    if k = n then (k, b ++ [opt]) :: rest else (k, b) :: addToBuckets n opt rest

/-- `Options.addOption`. -/
def Options.addOption (o : Options) (opt : Opt) : Options :=
  ⟨addToBuckets opt.number opt o.buckets⟩

/-- `Options.deleteOption`: `self._options.pop(number)` when present. -/
def Options.deleteOption (o : Options) (number : Nat) : Options :=
  ⟨o.buckets.filter (fun kb => kb.1 ≠ number)⟩

/-- Lookup of a key in the bucket list (`dict.get`). -/
def getBuckets (number : Nat) : List (Nat × List Opt) → Option (List Opt)
  | [] => none
  | (k, b) :: rest => if k = number then some b else getBuckets number rest

/-- `Options.getOption`: `self._options.get(number)`. -/
def Options.getOption (o : Options) (number : Nat) : Option (List Opt) :=
  getBuckets number o.buckets

/-- Sort key of `Options.optionList`: `lambda x: x[0].number`.  Python would
raise `IndexError` on an empty bucket; no reachable state has one (see the
invariant theorem), and `0` stands in for that unreachable case. -/
def headNumber : List Opt → Nat
  | [] => 0
  | o :: _ => o.number

/-- Comparison used to model Python's stable ascending `sorted` on buckets. -/
def bucketLE (a b : List Opt) : Prop := headNumber a ≤ headNumber b

instance : DecidableRel bucketLE := fun a b => Nat.decLe (headNumber a) (headNumber b)

instance : IsTotal (List Opt) bucketLE :=
  ⟨fun a b => Nat.le_total (headNumber a) (headNumber b)⟩

instance : IsTrans (List Opt) bucketLE :=
  ⟨fun _ _ _ h1 h2 => Nat.le_trans h1 h2⟩

/-- `Options.optionList`:
`chain.from_iterable(sorted(self._options.values(), key=lambda x: x[0].number))`.
`List.insertionSort` with a `≤` comparison is stable, like Python `sorted`. -/
def Options.optionList (o : Options) : List Opt :=
  (List.insertionSort bucketLE (o.buckets.map Prod.snd)).flatten

/-- `Options.readExtendedFieldValue(value, rawdata)`: decode one extended
delta/length field.  The source checks `value >= 0 and value < 13` (the lower
bound is vacuous for naturals), then nibble 13 reads one byte, nibble 14 reads
a big-endian 16-bit value, and anything else (only 15) raises `ValueError`. -/
def Options.readExtendedFieldValue (value : Nat) (rawdata : List Nat) :
    Except DecErr (Nat × List Nat) :=
  if value < 13 then .ok (value, rawdata)
  else if value = 13 then
    match rawdata with
    | [] => .error .indexError          -- ord(rawdata[0]) on the empty string
    | b :: rest => .ok (b + 13, rest)
  else if value = 14 then
    match rawdata with
    | b1 :: b2 :: rest => .ok (b1 * 256 + b2 + 269, rest)
    | _ => .error .structError          -- struct.unpack('!H', rawdata[:2])
  else .error .valueError

/-- `Options.writeExtendedFieldValue(value)`: encode one extended
delta/length field.  The argument is a Python int, hence `Int` here (the
delta passed by `encode` could in principle be negative). -/
def Options.writeExtendedFieldValue (value : Int) :
    Except EncErr (Nat × List Nat) :=
  if 0 ≤ value ∧ value < 13 then .ok (value.toNat, [])
  else if 13 ≤ value ∧ value < 269 then .ok (13, [(value - 13).toNat])
  else if 269 ≤ value ∧ value < 65804 then
    .ok (14, [(value - 269).toNat / 256, (value - 269).toNat % 256])
  else .error .rangeError

/-- One iteration of the loop in `Options.encode`: header byte
`chr(((delta & 0x0F) << 4) + (length & 0x0F))`, then the delta extension,
the length extension and the encoded value. -/
def Options.encodeOne (current_opt_num : Nat) (o : Opt) : Except EncErr (List Nat) :=
  match Options.writeExtendedFieldValue ((o.number : Int) - current_opt_num) with
  | .error e => .error e
  | .ok (dn, dext) =>
    match valueLength o.value with
    | .error e => .error e
    | .ok len =>
      match Options.writeExtendedFieldValue (len : Int) with
      | .error e => .error e
      | .ok (ln, lext) =>
        match valueEncode o.value with
        | .error e => .error e
        | .ok body => .ok (((dn % 16) * 16 + ln % 16) :: (dext ++ lext ++ body))

/-- The loop of `Options.encode` over `optionList`, carrying
`current_opt_num`. -/
def Options.encodeLoop (current_opt_num : Nat) : List Opt → Except EncErr (List Nat)
  | [] => .ok []
  | o :: rest =>
    match Options.encodeOne current_opt_num o with
    | .error e => .error e
    | .ok chunk =>
      match Options.encodeLoop o.number rest with
      | .error e => .error e
      | .ok tail => .ok (chunk ++ tail)

/-- `Options.encode`. -/
def Options.encode (o : Options) : Except EncErr (List Nat) :=
  Options.encodeLoop 0 o.optionList

/-- Suffix bound for `readExtendedFieldValue`, needed for termination of the
decode loop. -/
theorem readExtendedFieldValue_len {value : Nat} {rawdata rest : List Nat} {v : Nat}
    (h : Options.readExtendedFieldValue value rawdata = .ok (v, rest)) :
    rest.length ≤ rawdata.length := by
  unfold Options.readExtendedFieldValue at h
  split at h
  · cases h; exact Nat.le_refl _
  · split at h
    · cases rawdata with
      | nil => cases h
      | cons b bs => cases h; exact Nat.le_succ _
    · split at h
      · match rawdata, h with
        | b1 :: b2 :: bs, h =>
          cases h
          simp only [List.length_cons]
          omega
      · cases h

/-- The `while len(rawdata) > 0` loop of `Options.decode`, carrying the
accumulated `option_number` and the options added so far (`self`).  A leading
`0xFF` byte returns the remaining bytes as payload; exhausting the input
returns an empty payload. -/
def Options.decodeLoop (option_number : Nat) (opts : Options) (rawdata : List Nat) :
    Except DecErr (Options × List Nat) :=
  match rawdata with
  | [] => .ok (opts, [])
  | b :: rest =>
    if b = 255 then .ok (opts, rest)
    else
      -- delta = (dllen & 0xF0) >> 4 and length = dllen & 0x0F
      match h1 : Options.readExtendedFieldValue (b / 16 % 16) rest with
      | .error e => .error e
      | .ok (delta, rd1) =>
        match h2 : Options.readExtendedFieldValue (b % 16) rd1 with
        | .error e => .error e
        | .ok (length, rd2) =>
          let n := option_number + delta
          Options.decodeLoop n
            (opts.addOption ⟨n, kindDecode (option_formats n) (rd2.take length)⟩)
            (rd2.drop length)
termination_by rawdata.length
decreasing_by
  have l1 := readExtendedFieldValue_len h1
  have l2 := readExtendedFieldValue_len h2
  simp only [List.length_drop, List.length_cons]
  omega

/-- `Options.decode(rawdata)` on a container `o` (`self`): returns the
populated container and the payload bytes. -/
def Options.decode (o : Options) (rawdata : List Nat) :
    Except DecErr (Options × List Nat) :=
  Options.decodeLoop 0 o rawdata

/-- The argument of a path-like setter: Python distinguishes a single string
(`isinstance(segments, basestring)`) from a list/tuple of segment strings. -/
inductive SegArg where
  | scalar (s : List Nat)
  | seq (segments : List (List Nat))
  deriving DecidableEq, Repr

/-- Error kind of the accessor layer: `ValueError("... should be passed as a
list or tuple of segments")`, the spec's InvalidArgument kind. -/
inductive AccErr where
  | invalidArgument
  deriving DecidableEq, Repr

/-- Fold used by the multi-valued setters: add one option per element. -/
def addAll (o : Options) (l : List Opt) : Options :=
  l.foldl Options.addOption o

/-- `Options._setUriPath`: reject a bare string, otherwise delete the bucket
and add one `StringOption(URI_PATH, segment)` per segment, in order
(`str(segment)` is the identity on strings). -/
def Options.setUriPath (o : Options) (segments : SegArg) : Except AccErr Options :=
  match segments with
  | .scalar _ => .error .invalidArgument
  | .seq l => .ok (addAll (o.deleteOption URI_PATH) (l.map fun s => ⟨URI_PATH, .str s⟩))

/-- `Options._getUriPath`: the values of the Uri-Path bucket, or `[]`. -/
def Options.getUriPath (o : Options) : List OptVal :=
  match o.getOption URI_PATH with
  | none => []
  | some b => b.map Opt.value

/-- `Options._setUriQuery`: same shape as `_setUriPath`. -/
def Options.setUriQuery (o : Options) (segments : SegArg) : Except AccErr Options :=
  match segments with
  | .scalar _ => .error .invalidArgument
  | .seq l => .ok (addAll (o.deleteOption URI_QUERY) (l.map fun s => ⟨URI_QUERY, .str s⟩))

/-- `Options._setLocationPath`: same shape as `_setUriPath`. -/
def Options.setLocationPath (o : Options) (segments : SegArg) : Except AccErr Options :=
  match segments with
  | .scalar _ => .error .invalidArgument
  | .seq l =>
    .ok (addAll (o.deleteOption LOCATION_PATH) (l.map fun s => ⟨LOCATION_PATH, .str s⟩))

/-- `bucket[0].value`, as used by the single-valued getters.  Python would
raise `IndexError` on an empty bucket; no reachable state has one, and the
default below stands in for that unreachable case. -/
def bucketHeadValue : List Opt → OptVal
  | [] => .opaq []
  | x :: _ => x.value

/-- `Options._setBlock2`: replace the bucket with one `BlockOption`. -/
def Options.setBlock2 (o : Options) (t : Nat × Bool × Nat) : Options :=
  (o.deleteOption BLOCK2).addOption ⟨BLOCK2, .block t.1 t.2.1 t.2.2⟩

/-- `Options._setBlock1`. -/
def Options.setBlock1 (o : Options) (t : Nat × Bool × Nat) : Options :=
  (o.deleteOption BLOCK1).addOption ⟨BLOCK1, .block t.1 t.2.1 t.2.2⟩

/-- `Options._setContentFormat`: unlike `_setObserve`/`_setAccept` there is
no `None` guard — the source always adds `UintOption(CONTENT_FORMAT, value)`,
even when the value is `None`. -/
def Options.setContentFormat (o : Options) (content_format : Option Nat) : Options :=
  (o.deleteOption CONTENT_FORMAT).addOption
    ⟨CONTENT_FORMAT, match content_format with | none => .uintNone | some v => .uint v⟩

/-- `Options._getContentFormat`: `bucket[0].value`, or `None` when absent. -/
def Options.getContentFormat (o : Options) : Option OptVal :=
  (o.getOption CONTENT_FORMAT).map bucketHeadValue

/-- `Options._setObserve`: delete the bucket; add a `UintOption` only when
the argument is not `None`. -/
def Options.setObserve (o : Options) (observe : Option Nat) : Options :=
  match observe with
  | none => o.deleteOption OBSERVE
  | some v => (o.deleteOption OBSERVE).addOption ⟨OBSERVE, .uint v⟩

/-- `Options._getObserve`. -/
def Options.getObserve (o : Options) : Option OptVal :=
  (o.getOption OBSERVE).map bucketHeadValue

/-- `Options._setAccept`: same shape as `_setObserve`. -/
def Options.setAccept (o : Options) (accept : Option Nat) : Options :=
  match accept with
  | none => o.deleteOption ACCEPT
  | some v => (o.deleteOption ACCEPT).addOption ⟨ACCEPT, .uint v⟩

/-- `Options._getAccept`. -/
def Options.getAccept (o : Options) : Option OptVal :=
  (o.getOption ACCEPT).map bucketHeadValue

/-- `Options._setETag`: delete the bucket; add one `OpaqueOption` when the
argument is not `None`. -/
def Options.setETag (o : Options) (etag : Option (List Nat)) : Options :=
  match etag with
  | none => o.deleteOption ETAG
  | some t => (o.deleteOption ETAG).addOption ⟨ETAG, .opaq t⟩

/-- `Options._setETags`: delete the bucket; add one `OpaqueOption` per tag. -/
def Options.setETags (o : Options) (etags : List (List Nat)) : Options :=
  addAll (o.deleteOption ETAG) (etags.map fun t => ⟨ETAG, .opaq t⟩)

/-- Well-formedness of one bucket entry: non-empty, and every stored option
carries the bucket's key as its number. -/
def bucketWF (n : Nat) (b : List Opt) : Bool :=
  !b.isEmpty && b.all fun x => x.number == n

/-- The key `n` does not occur in the bucket list (dict keys are unique). -/
def keyFresh (n : Nat) (bs : List (Nat × List Opt)) : Bool :=
  bs.all fun kb => kb.1 != n

/-- Well-formedness of the whole bucket list: every bucket well formed and
all keys distinct. -/
def bucketsWF : List (Nat × List Opt) → Bool
  | [] => true
  | (k, b) :: rest => bucketWF k b && keyFresh k rest && bucketsWF rest

/-- The container invariant of claim C10. -/
def optionsWF (o : Options) : Bool := bucketsWF o.buckets

/-- Encodability of one option, claim C1's "per-number encodable values":
the value's class is the one `option_formats` assigns to the number (so the
decoder picks the same class), and packed integers fit `struct.pack("!L")`. -/
def optWF (o : Opt) : Bool :=
  match o.value, option_formats o.number with
  | .opaq _, .opaq => true
  | .str _, .str => true
  | .uint v, .uint => v < 4294967296
  | .block num _ szx, .block => num < 268435456 && szx < 8
  | _, _ => false

/-- The extra hypothesis forced on claims C1/C2 by the Block length slip:
the packed integer of every Block value is nonzero. -/
def blockNonzero (o : Opt) : Bool :=
  match o.value with
  | .block num m szx => BlockOption.pack num m szx != 0
  | _ => true

/-- The value's integers fit `struct.pack("!L")` and the length property is
computable (the spec's 32-bit invariant); used by claim C4 to pin the error
kind down to RangeError. -/
def packable (o : Opt) : Bool :=
  match o.value with
  | .uint v => v < 4294967296
  | .uintNone => false
  | .block num m szx => BlockOption.pack num m szx < 4294967296
  | _ => true

/-- The length property value of an option, `65803` at most. -/
def lengthOK (o : Opt) : Bool :=
  match valueLength o.value with
  | .ok n => n ≤ 65803
  | .error _ => false

/-- Every delta (relative to the running `current_opt_num`) and every length
along the list lies in `[0, 65803]` (deltas computed with truncated natural
subtraction: the list produced by `optionList` is ascending). -/
def extFieldsOK (current : Nat) : List Opt → Bool
  | [] => true
  | o :: rest => (o.number - current ≤ 65803) && lengthOK o && extFieldsOK o.number rest

/-- The list is ascending and starts at or above `current`. -/
def sortedFrom (current : Nat) : List Opt → Bool
  | [] => true
  | o :: rest => current ≤ o.number && sortedFrom o.number rest

/-- The value of `current_opt_num` after encoding the given list. -/
def endNumber (current : Nat) : List Opt → Nat
  | [] => current
  | o :: rest => endNumber o.number rest

/-- States reachable from the empty Option Set by adds, removes, decodes and
the accessor setters (claim C10). -/
inductive Reachable : Options → Prop where
  | empty : Reachable emptyOptions
  | add (opt : Opt) {o : Options} : Reachable o → Reachable (o.addOption opt)
  | delete (n : Nat) {o : Options} : Reachable o → Reachable (o.deleteOption n)
  | decodeOk {o o2 : Options} {n : Nat} {bs p : List Nat} :
      Reachable o → Options.decodeLoop n o bs = .ok (o2, p) → Reachable o2
  | uriPath {o o2 : Options} {a : SegArg} :
      Reachable o → o.setUriPath a = .ok o2 → Reachable o2
  | uriQuery {o o2 : Options} {a : SegArg} :
      Reachable o → o.setUriQuery a = .ok o2 → Reachable o2
  | locationPath {o o2 : Options} {a : SegArg} :
      Reachable o → o.setLocationPath a = .ok o2 → Reachable o2
  | block2 (t : Nat × Bool × Nat) {o : Options} : Reachable o → Reachable (o.setBlock2 t)
  | block1 (t : Nat × Bool × Nat) {o : Options} : Reachable o → Reachable (o.setBlock1 t)
  | contentFormat (x : Option Nat) {o : Options} :
      Reachable o → Reachable (o.setContentFormat x)
  | observe (x : Option Nat) {o : Options} : Reachable o → Reachable (o.setObserve x)
  | accept (x : Option Nat) {o : Options} : Reachable o → Reachable (o.setAccept x)
  | etag (x : Option (List Nat)) {o : Options} : Reachable o → Reachable (o.setETag x)
  | etags (x : List (List Nat)) {o : Options} : Reachable o → Reachable (o.setETags x)

theorem bitLengthAux_eq (fuel : Nat) : ∀ n, n ≤ fuel →
    bitLengthAux fuel n = if n = 0 then 0 else Nat.log2 n + 1 := by
  induction fuel with
  | zero =>
    intro n hn
    have h0 : n = 0 := by omega
    subst h0
    rfl
  | succ fuel ih =>
    intro n hn
    by_cases h0 : n = 0
    · subst h0
      rfl
    · unfold bitLengthAux
      rw [if_neg h0, if_neg h0]
      have hdiv : n / 2 ≤ fuel := by omega
      rw [ih (n / 2) hdiv]
      by_cases h1 : n / 2 = 0
      · have hn1 : n = 1 := by omega
        subst hn1
        rw [if_pos rfl]
        rw [Nat.log2]
        simp
      · rw [if_neg h1]
        conv_rhs => rw [Nat.log2]
        rw [if_pos (by omega : 2 ≤ n)]

theorem bitLength_eq (v : Nat) :
    bitLength v = if v = 0 then 0 else Nat.log2 v + 1 :=
  bitLengthAux_eq v v (Nat.le_refl _)

theorem lstripZero_cons_zero (bs : List Nat) : lstripZero (0 :: bs) = lstripZero bs := by
  simp [lstripZero]

theorem lstripZero_cons_ne {b : Nat} (bs : List Nat) (h : b ≠ 0) :
    lstripZero (b :: bs) = b :: bs := by
  simp [lstripZero, h]

theorem bitLength_le_iff {v k : Nat} (hv : v ≠ 0) : bitLength v ≤ k ↔ v < 2 ^ k := by
  rw [bitLength_eq, if_neg hv]
  constructor
  · intro h
    exact (Nat.log2_lt hv).mp (by omega)
  · intro h
    have := (Nat.log2_lt hv).mpr h
    omega

theorem lt_bitLength_iff {v k : Nat} (hv : v ≠ 0) : k < bitLength v ↔ 2 ^ k ≤ v := by
  rw [bitLength_eq, if_neg hv]
  constructor
  · intro h
    exact (Nat.le_log2 hv).mp (by omega)
  · intro h
    have := (Nat.le_log2 hv).mpr h
    omega

theorem bitLength_pos {v : Nat} (hv : v ≠ 0) : 1 ≤ bitLength v := by
  rw [bitLength_eq, if_neg hv]
  omega

theorem UintOption.length_of_pos {v : Nat} (h : v ≠ 0) :
    UintOption.length v = (bitLength v - 1) / 8 + 1 := by
  unfold UintOption.length
  rw [if_pos (Nat.pos_of_ne_zero h)]

/-- Key facts about `UintOption.encode` for values that fit
`struct.pack("!L", v)`: it round-trips through `UintOption.decode`, its byte
count is the `_length` property, it has no leading zero byte, and value 0
encodes to the empty string. -/
theorem uintEncode_spec {v : Nat} (h : v < 4294967296) :
    UintOption.decode (UintOption.encode v) = v ∧
    (UintOption.encode v).length = UintOption.length v ∧
    (UintOption.encode v).head? ≠ some 0 ∧
    (v = 0 → UintOption.encode v = []) := by
  rcases Nat.lt_or_ge v 1 with h0 | h1
  · have hv : v = 0 := by omega
    subst hv
    refine ⟨rfl, rfl, by simp [UintOption.encode, packL, lstripZero], fun _ => rfl⟩
  rcases Nat.lt_or_ge v 256 with hr | hr
  · -- one byte
    have hv : v ≠ 0 := by omega
    have e : UintOption.encode v = [v] := by
      unfold UintOption.encode packL
      have e1 : v / 16777216 % 256 = 0 := by omega
      have e2 : v / 65536 % 256 = 0 := by omega
      have e3 : v / 256 % 256 = 0 := by omega
      have e4 : v % 256 = v := by omega
      rw [e1, e2, e3, e4, lstripZero_cons_zero, lstripZero_cons_zero,
        lstripZero_cons_zero, lstripZero_cons_ne _ hv]
    have bl1 : 1 ≤ bitLength v := bitLength_pos hv
    have bl8 : bitLength v ≤ 8 := (bitLength_le_iff hv).mpr (by omega)
    rw [e]
    refine ⟨by simp [UintOption.decode], ?_, by simp [hv], by omega⟩
    rw [UintOption.length_of_pos hv]
    simp only [List.length_cons, List.length_nil]
    omega
  rcases Nat.lt_or_ge v 65536 with hr2 | hr2
  · -- two bytes
    have hv : v ≠ 0 := by omega
    have hb : v / 256 ≠ 0 := by omega
    have e : UintOption.encode v = [v / 256, v % 256] := by
      unfold UintOption.encode packL
      have e1 : v / 16777216 % 256 = 0 := by omega
      have e2 : v / 65536 % 256 = 0 := by omega
      have e3 : v / 256 % 256 = v / 256 := by omega
      rw [e1, e2, e3, lstripZero_cons_zero, lstripZero_cons_zero,
        lstripZero_cons_ne _ hb]
    have bl1 : 8 < bitLength v := (lt_bitLength_iff hv).mpr (by omega)
    have bl8 : bitLength v ≤ 16 := (bitLength_le_iff hv).mpr (by omega)
    rw [e]
    refine ⟨?_, ?_, by simp [hb], by omega⟩
    · simp [UintOption.decode]
      omega
    · rw [UintOption.length_of_pos hv]
      simp only [List.length_cons, List.length_nil]
      omega
  rcases Nat.lt_or_ge v 16777216 with hr3 | hr3
  · -- three bytes
    have hv : v ≠ 0 := by omega
    have hb : v / 65536 ≠ 0 := by omega
    have e : UintOption.encode v = [v / 65536, v / 256 % 256, v % 256] := by
      unfold UintOption.encode packL
      have e1 : v / 16777216 % 256 = 0 := by omega
      have e2 : v / 65536 % 256 = v / 65536 := by omega
      rw [e1, e2, lstripZero_cons_zero, lstripZero_cons_ne _ hb]
    have bl1 : 16 < bitLength v := (lt_bitLength_iff hv).mpr (by omega)
    have bl8 : bitLength v ≤ 24 := (bitLength_le_iff hv).mpr (by omega)
    rw [e]
    refine ⟨?_, ?_, by simp [hb], by omega⟩
    · simp [UintOption.decode]
      omega
    · rw [UintOption.length_of_pos hv]
      simp only [List.length_cons, List.length_nil]
      omega
  · -- four bytes
    have hv : v ≠ 0 := by omega
    have hb : v / 16777216 ≠ 0 := by omega
    have e : UintOption.encode v =
        [v / 16777216, v / 65536 % 256, v / 256 % 256, v % 256] := by
      unfold UintOption.encode packL
      have e1 : v / 16777216 % 256 = v / 16777216 := by omega
      rw [e1, lstripZero_cons_ne _ hb]
    have bl1 : 24 < bitLength v := (lt_bitLength_iff hv).mpr (by omega)
    have bl8 : bitLength v ≤ 32 := (bitLength_le_iff hv).mpr (by omega)
    rw [e]
    refine ⟨?_, ?_, by simp [hb], by omega⟩
    · simp [UintOption.decode]
      omega
    · rw [UintOption.length_of_pos hv]
      simp only [List.length_cons, List.length_nil]
      omega

theorem UintOption.length_eq_ceil (v : Nat) :
    UintOption.length v = (bitLength v + 7) / 8 := by
  unfold UintOption.length
  split
  · have : 1 ≤ bitLength v := bitLength_pos (by omega)
    omega
  · have : v = 0 := by omega
    subst this
    simp [bitLength_eq]

theorem UintOption.decode_append (bs : List Nat) (b : Nat) :
    UintOption.decode (bs ++ [b]) = UintOption.decode bs * 256 + b := by
  unfold UintOption.decode
  rw [List.foldl_append]
  rfl

theorem bitLength_pack {num r : Nat} (hn : num ≠ 0) (hr : r < 16) :
    bitLength (num * 16 + r) = bitLength num + 4 := by
  have hp : num * 16 + r ≠ 0 := by
    have := Nat.one_le_iff_ne_zero.mpr hn
    omega
  have hub : num < 2 ^ bitLength num := by
    have h := bitLength_le_iff hn (k := bitLength num)
    exact h.mp (Nat.le_refl _)
  have hlb : 2 ^ (bitLength num - 1) ≤ num := by
    have h := lt_bitLength_iff hn (k := bitLength num - 1)
    apply h.mp
    have := bitLength_pos hn
    omega
  have e1 : bitLength (num * 16 + r) ≤ bitLength num + 4 := by
    apply (bitLength_le_iff hp).mpr
    have : (2 : Nat) ^ (bitLength num + 4) = 2 ^ bitLength num * 16 := by
      rw [pow_add]
      norm_num
    omega
  have e2 : bitLength num + 3 < bitLength (num * 16 + r) := by
    apply (lt_bitLength_iff hp).mpr
    have hbp := bitLength_pos hn
    have e3 : bitLength num + 3 = bitLength num - 1 + 4 := by omega
    have : (2 : Nat) ^ (bitLength num + 3) = 2 ^ (bitLength num - 1) * 16 := by
      rw [e3, pow_add]
      norm_num
    omega
  omega

/-- For a nonzero packed integer the `BlockOption._length` property agrees
with the byte count of `BlockOption.encode` (claim C2, amended). -/
theorem blockLength_spec {num : Nat} (m : Bool) {szx : Nat}
    (hn : num < 268435456) (hs : szx < 8)
    (hnz : BlockOption.pack num m szx ≠ 0) :
    BlockOption.length num = (BlockOption.encode num m szx).length := by
  have hr : (if m then 8 else 0) + szx < 16 := by cases m <;> simp <;> omega
  have hlt : BlockOption.pack num m szx < 4294967296 := by
    unfold BlockOption.pack
    omega
  have hlen := (uintEncode_spec hlt).2.1
  unfold BlockOption.encode
  rw [hlen, UintOption.length_eq_ceil]
  rcases Nat.eq_zero_or_pos num with h0 | h0
  · subst h0
    have hpz : BlockOption.pack 0 m szx ≠ 0 := hnz
    have hp16 : BlockOption.pack 0 m szx < 16 := by
      unfold BlockOption.pack
      omega
    have hb4 : bitLength (BlockOption.pack 0 m szx) ≤ 4 :=
      (bitLength_le_iff hpz).mpr (by omega)
    have hb1 : 1 ≤ bitLength (BlockOption.pack 0 m szx) := bitLength_pos hpz
    have e0 : BlockOption.length 0 = 1 := rfl
    rw [e0]
    omega
  · have hnum : num ≠ 0 := by omega
    have e : BlockOption.pack num m szx = num * 16 + ((if m then 8 else 0) + szx) := by
      unfold BlockOption.pack
      omega
    rw [e, bitLength_pack hnum hr]
    unfold BlockOption.length
    omega

/-- Unpacking inverts packing for in-range `szx` (any `num`). -/
theorem block_unpack_pack {num szx : Nat} (m : Bool) (hs : szx < 8) :
    BlockOption.pack num m szx / 16 = num ∧
    (BlockOption.pack num m szx / 8 % 2 == 1) = m ∧
    BlockOption.pack num m szx % 8 = szx := by
  cases m
  · have e : BlockOption.pack num false szx = num * 16 + szx := by
      simp [BlockOption.pack]
    rw [e]
    refine ⟨by omega, ?_, by omega⟩
    have h2 : (num * 16 + szx) / 8 % 2 = 0 := by omega
    rw [h2]
    rfl
  · have e : BlockOption.pack num true szx = num * 16 + 8 + szx := by
      simp [BlockOption.pack]
    rw [e]
    refine ⟨by omega, ?_, by omega⟩
    have h2 : (num * 16 + 8 + szx) / 8 % 2 = 1 := by omega
    rw [h2]
    rfl

theorem readExt_small {value : Nat} (h : value < 13) (rd : List Nat) :
    Options.readExtendedFieldValue value rd = .ok (value, rd) := by
  unfold Options.readExtendedFieldValue
  rw [if_pos h]

theorem readExt_13 (b : Nat) (rest : List Nat) :
    Options.readExtendedFieldValue 13 (b :: rest) = .ok (b + 13, rest) := rfl

theorem readExt_14 (b1 b2 : Nat) (rest : List Nat) :
    Options.readExtendedFieldValue 14 (b1 :: b2 :: rest) = .ok (b1 * 256 + b2 + 269, rest) := rfl

/-- A successful `writeExtendedFieldValue` yields a nibble of at most 14, an
in-range input, and extension bytes that `readExtendedFieldValue` turns back
into the input, consuming exactly those bytes. -/
theorem writeExt_ok_spec {v : Int} {nib : Nat} {ext : List Nat}
    (h : Options.writeExtendedFieldValue v = .ok (nib, ext)) :
    nib ≤ 14 ∧ 0 ≤ v ∧ v ≤ 65803 ∧ (∀ x ∈ ext, x < 256) ∧
    ∀ rest, Options.readExtendedFieldValue nib (ext ++ rest) = .ok (v.toNat, rest) := by
  unfold Options.writeExtendedFieldValue at h
  split at h
  · rename_i h1
    cases h
    refine ⟨by omega, by omega, by omega, by simp, fun rest => ?_⟩
    rw [List.nil_append, readExt_small (by omega)]
  · split at h
    · rename_i h2
      cases h
      refine ⟨by omega, by omega, by omega, by simp; omega, fun rest => ?_⟩
      rw [List.cons_append, List.nil_append, readExt_13]
      have e : (v - 13).toNat + 13 = v.toNat := by omega
      rw [e]
    · split at h
      · rename_i h3
        cases h
        refine ⟨by omega, by omega, by omega, by simp; omega, fun rest => ?_⟩
        rw [List.cons_append, List.cons_append, List.nil_append, readExt_14]
        have e : (v - 269).toNat / 256 * 256 + (v - 269).toNat % 256 + 269 = v.toNat := by
          omega
        rw [e]
      · cases h

/-- In-range values are accepted, with the extension-byte count of the
matching range. -/
theorem writeExt_ok_of_range {v : Int} (h0 : 0 ≤ v) (h1 : v ≤ 65803) :
    ∃ nib ext, Options.writeExtendedFieldValue v = .ok (nib, ext) ∧
      ext.length = (if v < 13 then 0 else if v < 269 then 1 else 2) := by
  unfold Options.writeExtendedFieldValue
  rcases Int.lt_or_le v 13 with hc | hc
  · rw [if_pos ⟨h0, hc⟩]
    exact ⟨_, _, rfl, by rw [if_pos hc]; rfl⟩
  · rcases Int.lt_or_le v 269 with hc2 | hc2
    · rw [if_neg (by omega), if_pos ⟨hc, hc2⟩]
      exact ⟨_, _, rfl, by rw [if_neg (by omega), if_pos hc2]; rfl⟩
    · rw [if_neg (by omega), if_neg (by omega), if_pos ⟨hc2, by omega⟩]
      exact ⟨_, _, rfl, by rw [if_neg (by omega), if_neg (by omega)]; rfl⟩

/-- Out-of-range values raise `ValueError("Value out of range.")`. -/
theorem writeExt_err {v : Int} (h : v < 0 ∨ 65804 ≤ v) :
    Options.writeExtendedFieldValue v = .error .rangeError := by
  unfold Options.writeExtendedFieldValue
  rw [if_neg (by omega), if_neg (by omega), if_neg (by omega)]

/-- The only error `writeExtendedFieldValue` raises is the range error. -/
theorem writeExt_error_kind {v : Int} {e : EncErr}
    (h : Options.writeExtendedFieldValue v = .error e) : e = .rangeError := by
  unfold Options.writeExtendedFieldValue at h
  split at h
  · cases h
  · split at h
    · cases h
    · split at h
      · cases h
      · cases h
        rfl

/-- Reading the two nibbles back out of the header byte built by `encode`. -/
theorem header_nibbles {dn ln : Nat} (hd : dn ≤ 14) (hl : ln ≤ 14) :
    ((dn % 16) * 16 + ln % 16) / 16 % 16 = dn ∧
    ((dn % 16) * 16 + ln % 16) % 16 = ln ∧
    ((dn % 16) * 16 + ln % 16) ≠ 255 := by
  omega

theorem getBuckets_addToBuckets (m : Nat) (opt : Opt) (n : Nat)
    (bs : List (Nat × List Opt)) :
    getBuckets n (addToBuckets m opt bs) =
      if m = n then some (((getBuckets n bs).getD []) ++ [opt]) else getBuckets n bs := by
  induction bs with
  | nil =>
    by_cases h : m = n
    · subst h
      simp [addToBuckets, getBuckets]
    · simp [addToBuckets, getBuckets, h]
  | cons kb rest ih =>
    obtain ⟨k, b⟩ := kb
    by_cases hk : k = m
    · subst hk
      by_cases hn : k = n
      · subst hn
        simp [addToBuckets, getBuckets]
      · simp [addToBuckets, getBuckets, hn]
    · by_cases hn : k = n
      · subst hn
        have hm : ¬ m = k := fun e => hk e.symm
        simp [addToBuckets, getBuckets, hk, hm]
      · simp [addToBuckets, getBuckets, hk, hn, ih]

/-- `addOption` appends to the bucket of the option's number and leaves every
other bucket unchanged. -/
theorem getOption_addOption (o : Options) (opt : Opt) (n : Nat) :
    (o.addOption opt).getOption n =
      if opt.number = n then some (((o.getOption n).getD []) ++ [opt])
      else o.getOption n := by
  unfold Options.addOption Options.getOption
  exact getBuckets_addToBuckets opt.number opt n o.buckets

theorem getBuckets_filter_ne (m n : Nat) (bs : List (Nat × List Opt)) :
    getBuckets n (bs.filter fun kb => kb.1 ≠ m) =
      if n = m then none else getBuckets n bs := by
  induction bs with
  | nil => by_cases h : n = m <;> simp [getBuckets, h]
  | cons kb rest ih =>
    obtain ⟨k, b⟩ := kb
    rw [List.filter_cons]
    by_cases hk : k = m
    · rw [if_neg (by simp [hk]), ih]
      by_cases hn : n = m
      · rw [if_pos hn, if_pos hn]
      · rw [if_neg hn, if_neg hn]
        have hkn : ¬ k = n := by omega
        simp [getBuckets, hkn]
    · rw [if_pos (by simp [hk])]
      by_cases hn : n = m
      · rw [if_pos hn]
        have hkn : ¬ k = n := by omega
        simp only [getBuckets, if_neg hkn]
        rw [ih, if_pos hn]
      · rw [if_neg hn]
        simp only [getBuckets]
        by_cases hkn : k = n
        · rw [if_pos hkn, if_pos hkn]
        · rw [if_neg hkn, if_neg hkn, ih, if_neg hn]

/-- `deleteOption` empties exactly the requested bucket. -/
theorem getOption_deleteOption (o : Options) (m n : Nat) :
    (o.deleteOption m).getOption n = if n = m then none else o.getOption n := by
  unfold Options.deleteOption Options.getOption
  exact getBuckets_filter_ne m n o.buckets

/-- Effect of a fold of `addOption` on one bucket. -/
theorem getOption_addAll (l : List Opt) (o : Options) (n : Nat) :
    (addAll o l).getOption n =
      if o.getOption n = none ∧ l.filter (fun x => x.number == n) = []
      then none
      else some (((o.getOption n).getD []) ++ l.filter (fun x => x.number == n)) := by
  induction l generalizing o with
  | nil =>
    rcases h : o.getOption n with _ | b
    · simp [addAll, h]
    · simp [addAll, h]
  | cons a l ih =>
    have step : addAll o (a :: l) = addAll (o.addOption a) l := rfl
    rw [step, ih]
    by_cases ha : a.number = n
    · have hget : (o.addOption a).getOption n = some (((o.getOption n).getD []) ++ [a]) := by
        rw [getOption_addOption, if_pos ha]
      have hfil : (a :: l).filter (fun x => x.number == n) =
          a :: l.filter (fun x => x.number == n) := by
        rw [List.filter_cons, if_pos (by simp [ha])]
      rw [hget, hfil]
      have c1 : ¬ (some (((o.getOption n).getD []) ++ [a]) = none ∧
          l.filter (fun x => x.number == n) = []) := by simp
      have c2 : ¬ (o.getOption n = none ∧
          (a :: l.filter (fun x => x.number == n)) = []) := by simp
      rw [if_neg c1, if_neg c2]
      simp
    · have hget : (o.addOption a).getOption n = o.getOption n := by
        rw [getOption_addOption, if_neg ha]
      have hfil : (a :: l).filter (fun x => x.number == n) =
          l.filter (fun x => x.number == n) := by
        rw [List.filter_cons, if_neg (by simp [ha])]
      rw [hget, hfil]

theorem getBuckets_mem {n : Nat} {bs : List (Nat × List Opt)} {b : List Opt}
    (h : getBuckets n bs = some b) : (n, b) ∈ bs := by
  induction bs with
  | nil => cases h
  | cons kb rest ih =>
    obtain ⟨k, c⟩ := kb
    unfold getBuckets at h
    split at h
    · rename_i hk
      cases h
      subst hk
      exact List.mem_cons_self _ _
    · exact List.mem_cons_of_mem _ (ih h)

theorem decodeLoop_nil (n : Nat) (o : Options) :
    Options.decodeLoop n o [] = .ok (o, []) := by
  rw [Options.decodeLoop.eq_def]

theorem decodeLoop_marker (n : Nat) (o : Options) (rest : List Nat) :
    Options.decodeLoop n o (255 :: rest) = .ok (o, rest) := by
  rw [Options.decodeLoop.eq_def]
  simp

theorem decodeLoop_err1 {n : Nat} {o : Options} {b : Nat} {rest : List Nat} {e : DecErr}
    (hb : b ≠ 255)
    (h1 : Options.readExtendedFieldValue (b / 16 % 16) rest = .error e) :
    Options.decodeLoop n o (b :: rest) = .error e := by
  rw [Options.decodeLoop.eq_def]
  simp only [if_neg hb]
  split
  · rename_i e1 heq
    rw [h1] at heq
    cases heq
    rfl
  · rename_i delta rd1 heq
    rw [h1] at heq
    cases heq

theorem decodeLoop_err2 {n : Nat} {o : Options} {b : Nat} {rest rd1 : List Nat}
    {delta : Nat} {e : DecErr} (hb : b ≠ 255)
    (h1 : Options.readExtendedFieldValue (b / 16 % 16) rest = .ok (delta, rd1))
    (h2 : Options.readExtendedFieldValue (b % 16) rd1 = .error e) :
    Options.decodeLoop n o (b :: rest) = .error e := by
  rw [Options.decodeLoop.eq_def]
  simp only [if_neg hb]
  split
  · rename_i e1 heq
    rw [h1] at heq
    cases heq
  · rename_i delta1 rd11 heq
    rw [h1] at heq
    cases heq
    split
    · rename_i e1 heq2
      rw [h2] at heq2
      cases heq2
      rfl
    · rename_i len1 rd21 heq2
      rw [h2] at heq2
      cases heq2

theorem decodeLoop_step {n : Nat} {o : Options} {b : Nat} {rest rd1 rd2 : List Nat}
    {delta len : Nat} (hb : b ≠ 255)
    (h1 : Options.readExtendedFieldValue (b / 16 % 16) rest = .ok (delta, rd1))
    (h2 : Options.readExtendedFieldValue (b % 16) rd1 = .ok (len, rd2)) :
    Options.decodeLoop n o (b :: rest) =
      Options.decodeLoop (n + delta)
        (o.addOption ⟨n + delta, kindDecode (option_formats (n + delta)) (rd2.take len)⟩)
        (rd2.drop len) := by
  rw [Options.decodeLoop.eq_def]
  simp only [if_neg hb]
  split
  · rename_i e1 heq
    rw [h1] at heq
    cases heq
  · rename_i delta1 rd11 heq
    rw [h1] at heq
    cases heq
    split
    · rename_i e1 heq2
      rw [h2] at heq2
      cases heq2
    · rename_i len1 rd21 heq2
      rw [h2] at heq2
      cases heq2
      rfl

theorem bucketWF_iff {k : Nat} {b : List Opt} :
    bucketWF k b = true ↔ b ≠ [] ∧ ∀ x ∈ b, x.number = k := by
  unfold bucketWF
  simp [List.all_eq_true, List.isEmpty_iff]

theorem bucketWF_headNumber {k : Nat} {b : List Opt} (h : bucketWF k b = true) :
    headNumber b = k := by
  rcases bucketWF_iff.mp h with ⟨hne, hall⟩
  cases b with
  | nil => exact absurd rfl hne
  | cons x xs => exact hall x (List.mem_cons_self _ _)

theorem keyFresh_iff {j : Nat} {bs : List (Nat × List Opt)} :
    keyFresh j bs = true ↔ ∀ kb ∈ bs, kb.1 ≠ j := by
  unfold keyFresh
  simp [List.all_eq_true]

theorem bucketsWF_cons {k : Nat} {b : List Opt} {rest : List (Nat × List Opt)} :
    bucketsWF ((k, b) :: rest) = true ↔
      bucketWF k b = true ∧ keyFresh k rest = true ∧ bucketsWF rest = true := by
  simp [bucketsWF, Bool.and_eq_true, and_assoc]

theorem bucketsWF_mem {bs : List (Nat × List Opt)} (h : bucketsWF bs = true)
    {k : Nat} {b : List Opt} (hm : (k, b) ∈ bs) : bucketWF k b = true := by
  induction bs with
  | nil => cases hm
  | cons kb rest ih =>
    obtain ⟨k0, b0⟩ := kb
    rcases bucketsWF_cons.mp h with ⟨h1, _, h3⟩
    rcases List.mem_cons.mp hm with hm | hm
    · cases hm
      exact h1
    · exact ih h3 hm

theorem addToBuckets_key {n : Nat} {opt : Opt} {bs : List (Nat × List Opt)}
    {kb : Nat × List Opt} (h : kb ∈ addToBuckets n opt bs) :
    kb.1 = n ∨ ∃ b0, (kb.1, b0) ∈ bs := by
  obtain ⟨k1, b1⟩ := kb
  induction bs with
  | nil =>
    simp [addToBuckets] at h
    exact Or.inl h.1
  | cons kb0 rest ih =>
    obtain ⟨k, b⟩ := kb0
    unfold addToBuckets at h
    split at h
    · rename_i hk
      rcases List.mem_cons.mp h with h1 | h1
      · cases h1
        exact Or.inl hk
      · exact Or.inr ⟨b1, List.mem_cons_of_mem _ h1⟩
    · rcases List.mem_cons.mp h with h1 | h1
      · cases h1
        exact Or.inr ⟨b1, List.mem_cons_self _ _⟩
      · rcases ih h1 with h2 | ⟨b0, h2⟩
        · exact Or.inl h2
        · exact Or.inr ⟨b0, List.mem_cons_of_mem _ h2⟩

theorem keyFresh_addToBuckets {j n : Nat} {opt : Opt} {bs : List (Nat × List Opt)}
    (h : keyFresh j bs = true) (hne : n ≠ j) :
    keyFresh j (addToBuckets n opt bs) = true := by
  apply keyFresh_iff.mpr
  intro kb hm
  rcases addToBuckets_key hm with h1 | ⟨b0, h1⟩
  · rw [h1]
    exact hne
  · exact keyFresh_iff.mp h (kb.1, b0) h1

theorem bucketsWF_addToBuckets {bs : List (Nat × List Opt)} {opt : Opt}
    (h : bucketsWF bs = true) :
    bucketsWF (addToBuckets opt.number opt bs) = true := by
  induction bs with
  | nil =>
    simp [addToBuckets, bucketsWF, bucketWF, keyFresh]
  | cons kb rest ih =>
    obtain ⟨k, b⟩ := kb
    rcases bucketsWF_cons.mp h with ⟨h1, h2, h3⟩
    unfold addToBuckets
    split
    · rename_i hk
      apply bucketsWF_cons.mpr
      refine ⟨?_, h2, h3⟩
      rcases bucketWF_iff.mp h1 with ⟨hne, hall⟩
      apply bucketWF_iff.mpr
      refine ⟨by simp, ?_⟩
      intro x hx
      rcases List.mem_append.mp hx with hx | hx
      · exact hall x hx
      · simp at hx
        rw [hx]
        exact hk.symm
    · rename_i hk
      apply bucketsWF_cons.mpr
      exact ⟨h1, keyFresh_addToBuckets h2 (fun e => hk e.symm), ih h3⟩

theorem optionsWF_addOption {o : Options} (opt : Opt) (h : optionsWF o = true) :
    optionsWF (o.addOption opt) = true :=
  bucketsWF_addToBuckets h

theorem keyFresh_filter {j : Nat} {bs : List (Nat × List Opt)}
    (h : keyFresh j bs = true) (p : Nat × List Opt → Bool) :
    keyFresh j (bs.filter p) = true := by
  apply keyFresh_iff.mpr
  intro kb hm
  exact keyFresh_iff.mp h kb (List.mem_of_mem_filter hm)

theorem bucketsWF_filter {bs : List (Nat × List Opt)} (h : bucketsWF bs = true)
    (p : Nat × List Opt → Bool) : bucketsWF (bs.filter p) = true := by
  induction bs with
  | nil => exact h
  | cons kb rest ih =>
    obtain ⟨k, b⟩ := kb
    rcases bucketsWF_cons.mp h with ⟨h1, h2, h3⟩
    rw [List.filter_cons]
    split
    · exact bucketsWF_cons.mpr ⟨h1, keyFresh_filter h2 p, ih h3⟩
    · exact ih h3

theorem optionsWF_deleteOption {o : Options} (n : Nat) (h : optionsWF o = true) :
    optionsWF (o.deleteOption n) = true :=
  bucketsWF_filter h _

theorem optionsWF_addAll {o : Options} (l : List Opt) (h : optionsWF o = true) :
    optionsWF (addAll o l) = true := by
  induction l generalizing o with
  | nil => exact h
  | cons a l ih => exact ih (optionsWF_addOption a h)

theorem decodeLoop_wf_aux (len : Nat) :
    ∀ (n : Nat) (o : Options) (bs : List Nat) (o2 : Options) (p : List Nat),
      bs.length ≤ len → optionsWF o = true →
      Options.decodeLoop n o bs = .ok (o2, p) → optionsWF o2 = true := by
  induction len with
  | zero =>
    intro n o bs o2 p hlen hwf hd
    have hbs : bs = [] := by
      cases bs with
      | nil => rfl
      | cons b rest => simp at hlen
    subst hbs
    rw [decodeLoop_nil] at hd
    cases hd
    exact hwf
  | succ len ih =>
    intro n o bs o2 p hlen hwf hd
    cases bs with
    | nil =>
      rw [decodeLoop_nil] at hd
      cases hd
      exact hwf
    | cons b rest =>
      by_cases hb : b = 255
      · subst hb
        rw [decodeLoop_marker] at hd
        cases hd
        exact hwf
      · cases hr1 : Options.readExtendedFieldValue (b / 16 % 16) rest with
        | error e =>
          rw [decodeLoop_err1 hb hr1] at hd
          cases hd
        | ok dp =>
          obtain ⟨delta, rd1⟩ := dp
          cases hr2 : Options.readExtendedFieldValue (b % 16) rd1 with
          | error e =>
            rw [decodeLoop_err2 hb hr1 hr2] at hd
            cases hd
          | ok lp =>
            obtain ⟨len2, rd2⟩ := lp
            rw [decodeLoop_step hb hr1 hr2] at hd
            have l1 := readExtendedFieldValue_len hr1
            have l2 := readExtendedFieldValue_len hr2
            apply ih _ _ _ _ _ ?_ (optionsWF_addOption _ hwf) hd
            simp only [List.length_drop]
            simp only [List.length_cons] at hlen
            omega

/-- Every operation of the container preserves the invariant; decoding in
particular. -/
theorem optionsWF_decodeLoop {n : Nat} {o o2 : Options} {bs p : List Nat}
    (h : optionsWF o = true) (hd : Options.decodeLoop n o bs = .ok (o2, p)) :
    optionsWF o2 = true :=
  decodeLoop_wf_aux bs.length n o bs o2 p (Nat.le_refl _) h hd

theorem sortedFrom_cons {c : Nat} {o : Opt} {l : List Opt} :
    sortedFrom c (o :: l) = true ↔ c ≤ o.number ∧ sortedFrom o.number l = true := by
  simp [sortedFrom, Bool.and_eq_true]

theorem sortedFrom_mono {c c2 : Nat} {l : List Opt} (h : c2 ≤ c)
    (hs : sortedFrom c l = true) : sortedFrom c2 l = true := by
  cases l with
  | nil => rfl
  | cons o l =>
    rcases sortedFrom_cons.mp hs with ⟨h1, h2⟩
    exact sortedFrom_cons.mpr ⟨by omega, h2⟩

theorem sortedFrom_ge {c : Nat} {l : List Opt} (hs : sortedFrom c l = true) :
    ∀ x ∈ l, c ≤ x.number := by
  induction l generalizing c with
  | nil => intro x hx; cases hx
  | cons o l ih =>
    rcases sortedFrom_cons.mp hs with ⟨h1, h2⟩
    intro x hx
    rcases List.mem_cons.mp hx with hx | hx
    · rw [hx]; exact h1
    · exact Nat.le_trans h1 (ih h2 x hx)

theorem sortedFrom_append_block {k c : Nat} {b t : List Opt}
    (hall : ∀ x ∈ b, x.number = k) (hc : c ≤ k) (ht : sortedFrom k t = true) :
    sortedFrom c (b ++ t) = true := by
  induction b generalizing c with
  | nil => exact sortedFrom_mono hc ht
  | cons x b ih =>
    rw [List.cons_append]
    apply sortedFrom_cons.mpr
    have hx : x.number = k := hall x (List.mem_cons_self _ _)
    refine ⟨by omega, ?_⟩
    rw [hx]
    exact ih (fun y hy => hall y (List.mem_cons_of_mem _ hy)) (Nat.le_refl _)

theorem sortedFrom_flatten {M : List (List Opt)} {c : Nat}
    (hh : ∀ b ∈ M, ∃ k, bucketWF k b = true)
    (hs : List.Sorted bucketLE M)
    (hc : ∀ b ∈ M, c ≤ headNumber b) :
    sortedFrom c M.flatten = true := by
  induction M generalizing c with
  | nil => rfl
  | cons b M ih =>
    rw [List.flatten_cons]
    obtain ⟨k, hk⟩ := hh b (List.mem_cons_self _ _)
    have hhead : headNumber b = k := bucketWF_headNumber hk
    rcases bucketWF_iff.mp hk with ⟨_, hall⟩
    apply sortedFrom_append_block hall (hhead ▸ hc b (List.mem_cons_self _ _))
    apply ih (fun b2 h2 => hh b2 (List.mem_cons_of_mem _ h2)) hs.of_cons
    intro b2 h2
    have := (List.pairwise_cons.mp hs).1 b2 h2
    unfold bucketLE at this
    omega

theorem mem_map_snd_WF {bs : List (Nat × List Opt)} (h : bucketsWF bs = true)
    {b : List Opt} (hm : b ∈ bs.map Prod.snd) : ∃ k, bucketWF k b = true := by
  rcases List.mem_map.mp hm with ⟨⟨k, b0⟩, hkb, he⟩
  cases he
  exact ⟨k, bucketsWF_mem h hkb⟩

theorem optionList_sortedFrom {o : Options} (h : optionsWF o = true) :
    sortedFrom 0 o.optionList = true := by
  unfold Options.optionList
  apply sortedFrom_flatten
  · intro b hb
    exact mem_map_snd_WF h
      (((List.perm_insertionSort bucketLE _).mem_iff).mp hb)
  · exact List.sorted_insertionSort bucketLE _
  · intro b _
    exact Nat.zero_le _

theorem sortedFrom_sorted {c : Nat} {l : List Opt} (h : sortedFrom c l = true) :
    List.Sorted (· ≤ ·) (l.map Opt.number) := by
  induction l generalizing c with
  | nil => simp
  | cons o l ih =>
    rcases sortedFrom_cons.mp h with ⟨h1, h2⟩
    rw [List.map_cons, List.sorted_cons]
    constructor
    · intro m hm
      rcases List.mem_map.mp hm with ⟨x, hx, he⟩
      rw [← he]
      exact sortedFrom_ge h2 x hx
    · exact ih h2

theorem filter_flatten_hom {n : Nat} {M : List (List Opt)}
    (hh : ∀ b ∈ M, ∀ x ∈ b, x.number = headNumber b) :
    M.flatten.filter (fun x => x.number == n) =
      (M.filter (fun b => headNumber b == n)).flatten := by
  induction M with
  | nil => rfl
  | cons b M ih =>
    rw [List.flatten_cons, List.filter_append, List.filter_cons]
    have hb := hh b (List.mem_cons_self _ _)
    have hrest := ih (fun b2 h2 => hh b2 (List.mem_cons_of_mem _ h2))
    by_cases hbn : headNumber b = n
    · rw [if_pos (by simp [hbn])]
      rw [List.flatten_cons]
      congr 1
      apply List.filter_eq_self.mpr
      intro x hx
      simp [hb x hx, hbn]
    · rw [if_neg (by simp [hbn])]
      have hz : b.filter (fun x => x.number == n) = [] := by
        apply List.filter_eq_nil_iff.mpr
        intro x hx
        simp [hb x hx, hbn]
      rw [hz, List.nil_append]
      exact hrest

theorem filter_key_sub (n : Nat) {L : List (List Opt)}
    (hnd : (L.map headNumber).Nodup) :
    L.filter (fun b => headNumber b == n) = [] ∨
      ∃ b, L.filter (fun b => headNumber b == n) = [b] := by
  induction L with
  | nil => exact Or.inl rfl
  | cons b L ih =>
    rw [List.map_cons, List.nodup_cons] at hnd
    rw [List.filter_cons]
    by_cases hb : headNumber b = n
    · rw [if_pos (by simp [hb])]
      right
      refine ⟨b, ?_⟩
      have hz : L.filter (fun b2 => headNumber b2 == n) = [] := by
        apply List.filter_eq_nil_iff.mpr
        intro x hx
        simp only [beq_iff_eq]
        intro he
        apply hnd.1
        rw [hb, ← he]
        exact List.mem_map_of_mem headNumber hx
      rw [hz]
    · rw [if_neg (by simp [hb])]
      exact ih hnd.2

theorem filter_key_sort_eq {n : Nat} {L : List (List Opt)}
    (hnd : (L.map headNumber).Nodup) :
    (List.insertionSort bucketLE L).filter (fun b => headNumber b == n) =
      L.filter (fun b => headNumber b == n) := by
  have hp := (List.perm_insertionSort bucketLE L).filter (fun b => headNumber b == n)
  rcases filter_key_sub n hnd with h | ⟨b, h⟩
  · rw [h] at hp
    rw [h]
    exact hp.eq_nil
  · rw [h] at hp
    rw [h]
    exact List.perm_singleton.mp hp

theorem map_headNumber_eq_keys {bs : List (Nat × List Opt)} (h : bucketsWF bs = true) :
    (bs.map Prod.snd).map headNumber = bs.map Prod.fst := by
  induction bs with
  | nil => rfl
  | cons kb rest ih =>
    obtain ⟨k, b⟩ := kb
    rcases bucketsWF_cons.mp h with ⟨h1, _, h3⟩
    simp [bucketWF_headNumber h1, ih h3]

theorem keys_nodup {bs : List (Nat × List Opt)} (h : bucketsWF bs = true) :
    (bs.map Prod.fst).Nodup := by
  induction bs with
  | nil => simp
  | cons kb rest ih =>
    obtain ⟨k, b⟩ := kb
    rcases bucketsWF_cons.mp h with ⟨_, h2, h3⟩
    rw [List.map_cons, List.nodup_cons]
    refine ⟨?_, ih h3⟩
    intro hmem
    rcases List.mem_map.mp hmem with ⟨kb2, hkb2, he⟩
    exact keyFresh_iff.mp h2 kb2 hkb2 he

theorem filter_key_getBuckets {n : Nat} {bs : List (Nat × List Opt)}
    (h : bucketsWF bs = true) :
    ((bs.map Prod.snd).filter (fun b => headNumber b == n)).flatten =
      (getBuckets n bs).getD [] := by
  induction bs with
  | nil => rfl
  | cons kb rest ih =>
    obtain ⟨k, b⟩ := kb
    rcases bucketsWF_cons.mp h with ⟨h1, h2, h3⟩
    rw [List.map_cons, List.filter_cons]
    have hh : headNumber b = k := bucketWF_headNumber h1
    by_cases hk : k = n
    · rw [if_pos (by simp [hh, hk])]
      rw [List.flatten_cons]
      have hrest : (rest.map Prod.snd).filter (fun b2 => headNumber b2 == n) = [] := by
        apply List.filter_eq_nil_iff.mpr
        intro x hx
        rcases List.mem_map.mp hx with ⟨⟨k2, b2⟩, hkb2, he⟩
        cases he
        have hk2 : k2 ≠ k := keyFresh_iff.mp h2 _ hkb2
        have hh2 : headNumber b2 = k2 := bucketWF_headNumber (bucketsWF_mem h3 hkb2)
        simp [hh2]
        omega
      rw [hrest]
      simp [getBuckets, hk]
    · rw [if_neg (by simp [hh, hk])]
      rw [ih h3]
      simp [getBuckets, hk]

/-- Filtering the full ascending option list by a number recovers exactly the
bucket stored under that number. -/
theorem optionList_filter {o : Options} (h : optionsWF o = true) (n : Nat) :
    o.optionList.filter (fun x => x.number == n) = (o.getOption n).getD [] := by
  unfold Options.optionList Options.getOption
  have hom : ∀ b ∈ List.insertionSort bucketLE (o.buckets.map Prod.snd),
      ∀ x ∈ b, x.number = headNumber b := by
    intro b hb x hx
    obtain ⟨k, hk⟩ :=
      mem_map_snd_WF h (((List.perm_insertionSort bucketLE _).mem_iff).mp hb)
    rw [bucketWF_headNumber hk]
    exact (bucketWF_iff.mp hk).2 x hx
  rw [filter_flatten_hom hom]
  have hnd : ((o.buckets.map Prod.snd).map headNumber).Nodup := by
    rw [map_headNumber_eq_keys h]
    exact keys_nodup h
  rw [filter_key_sort_eq hnd]
  exact filter_key_getBuckets h

theorem getOption_bucket_ne_nil {o : Options} (h : optionsWF o = true) {n : Nat}
    {b : List Opt} (hg : o.getOption n = some b) : b ≠ [] := by
  have hm : (n, b) ∈ o.buckets := getBuckets_mem hg
  exact (bucketWF_iff.mp (bucketsWF_mem h hm)).1

/-- Re-adding the ascending option list to an empty container reproduces the
original buckets, bucket by bucket. -/
theorem decode_rebuild {o : Options} (h : optionsWF o = true) (n : Nat) :
    (addAll emptyOptions o.optionList).getOption n = o.getOption n := by
  rw [getOption_addAll, optionList_filter h n]
  have hempty : emptyOptions.getOption n = none := rfl
  rcases hg : o.getOption n with _ | b
  · simp [hempty, hg]
  · have hne := getOption_bucket_ne_nil h hg
    simp [hempty, hg, hne]

theorem encodeOne_eq {cur : Nat} {o : Opt} {dn ln len : Nat} {dext lext body : List Nat}
    (h1 : Options.writeExtendedFieldValue ((o.number : Int) - cur) = .ok (dn, dext))
    (h2 : valueLength o.value = .ok len)
    (h3 : Options.writeExtendedFieldValue (len : Int) = .ok (ln, lext))
    (h4 : valueEncode o.value = .ok body) :
    Options.encodeOne cur o = .ok (((dn % 16) * 16 + ln % 16) :: (dext ++ lext ++ body)) := by
  unfold Options.encodeOne
  rw [h1]
  dsimp only
  rw [h2]
  dsimp only
  rw [h3]
  dsimp only
  rw [h4]

theorem encodeOne_err_delta {cur : Nat} {o : Opt} {e : EncErr}
    (h1 : Options.writeExtendedFieldValue ((o.number : Int) - cur) = .error e) :
    Options.encodeOne cur o = .error e := by
  unfold Options.encodeOne
  rw [h1]

theorem encodeOne_err_len {cur : Nat} {o : Opt} {dn : Nat} {dext : List Nat} {e : EncErr}
    (h1 : Options.writeExtendedFieldValue ((o.number : Int) - cur) = .ok (dn, dext))
    (h2 : valueLength o.value = .error e) :
    Options.encodeOne cur o = .error e := by
  unfold Options.encodeOne
  rw [h1]
  dsimp only
  rw [h2]

theorem encodeOne_err_lenwrite {cur : Nat} {o : Opt} {dn len : Nat}
    {dext : List Nat} {e : EncErr}
    (h1 : Options.writeExtendedFieldValue ((o.number : Int) - cur) = .ok (dn, dext))
    (h2 : valueLength o.value = .ok len)
    (h3 : Options.writeExtendedFieldValue (len : Int) = .error e) :
    Options.encodeOne cur o = .error e := by
  unfold Options.encodeOne
  rw [h1]
  dsimp only
  rw [h2]
  dsimp only
  rw [h3]

theorem encodeOne_err_enc {cur : Nat} {o : Opt} {dn ln len : Nat}
    {dext lext : List Nat} {e : EncErr}
    (h1 : Options.writeExtendedFieldValue ((o.number : Int) - cur) = .ok (dn, dext))
    (h2 : valueLength o.value = .ok len)
    (h3 : Options.writeExtendedFieldValue (len : Int) = .ok (ln, lext))
    (h4 : valueEncode o.value = .error e) :
    Options.encodeOne cur o = .error e := by
  unfold Options.encodeOne
  rw [h1]
  dsimp only
  rw [h2]
  dsimp only
  rw [h3]
  dsimp only
  rw [h4]

theorem encodeLoop_cons_ok {cur : Nat} {o : Opt} {rest : List Opt}
    {chunk tail : List Nat}
    (h1 : Options.encodeOne cur o = .ok chunk)
    (h2 : Options.encodeLoop o.number rest = .ok tail) :
    Options.encodeLoop cur (o :: rest) = .ok (chunk ++ tail) := by
  unfold Options.encodeLoop
  rw [h1]
  dsimp only
  rw [h2]

theorem encodeLoop_cons_err1 {cur : Nat} {o : Opt} {rest : List Opt} {e : EncErr}
    (h1 : Options.encodeOne cur o = .error e) :
    Options.encodeLoop cur (o :: rest) = .error e := by
  unfold Options.encodeLoop
  rw [h1]

theorem encodeLoop_cons_err2 {cur : Nat} {o : Opt} {rest : List Opt}
    {chunk : List Nat} {e : EncErr}
    (h1 : Options.encodeOne cur o = .ok chunk)
    (h2 : Options.encodeLoop o.number rest = .error e) :
    Options.encodeLoop cur (o :: rest) = .error e := by
  unfold Options.encodeLoop
  rw [h1]
  dsimp only
  rw [h2]

/-- An encodable option (class matching the registry, integers in pack
range, Block packed integer nonzero) has a length property equal to its
encoded byte count, and its value survives the decode dispatch for its
number. -/
theorem value_roundtrip {o : Opt} (hw : optWF o = true) (hb : blockNonzero o = true) :
    ∃ len body, valueLength o.value = .ok len ∧ valueEncode o.value = .ok body ∧
      len = body.length ∧ kindDecode (option_formats o.number) body = o.value := by
  cases hov : o.value with
  | opaq data =>
    unfold optWF at hw
    rw [hov] at hw
    cases hk : option_formats o.number <;> rw [hk] at hw <;> simp at hw
    exact ⟨data.length, data, rfl, rfl, rfl, rfl⟩
  | str data =>
    unfold optWF at hw
    rw [hov] at hw
    cases hk : option_formats o.number <;> rw [hk] at hw <;> simp at hw
    exact ⟨data.length, data, rfl, rfl, rfl, rfl⟩
  | uint v =>
    unfold optWF at hw
    rw [hov] at hw
    cases hk : option_formats o.number <;> rw [hk] at hw <;> simp at hw
    obtain ⟨hdec, hlen, _, _⟩ := uintEncode_spec hw
    refine ⟨UintOption.length v, UintOption.encode v, rfl, ?_, hlen.symm, ?_⟩
    · simp only [valueEncode]
      rw [if_pos hw]
    · simp only [kindDecode]
      rw [hdec]
  | uintNone =>
    unfold optWF at hw
    rw [hov] at hw
    cases hk : option_formats o.number <;> rw [hk] at hw <;> simp at hw
  | block num m szx =>
    unfold optWF at hw
    rw [hov] at hw
    cases hk : option_formats o.number <;> rw [hk] at hw <;> simp at hw
    obtain ⟨hnum, hszx⟩ := hw
    have hnz : BlockOption.pack num m szx ≠ 0 := by
      unfold blockNonzero at hb
      rw [hov] at hb
      simpa using hb
    have hlt : BlockOption.pack num m szx < 4294967296 := by
      unfold BlockOption.pack
      cases m <;> simp <;> omega
    obtain ⟨hdec, hlen, _, _⟩ := uintEncode_spec hlt
    refine ⟨BlockOption.length num, BlockOption.encode num m szx, rfl, ?_, ?_, ?_⟩
    · simp only [valueEncode]
      rw [if_pos hlt]
    · exact blockLength_spec m hnum hszx hnz
    · simp only [kindDecode, BlockOption.encode]
      rw [hdec]
      obtain ⟨u1, u2, u3⟩ := @block_unpack_pack num szx m hszx
      rw [u1, u2, u3]

theorem extFieldsOK_cons {cur : Nat} {o : Opt} {l : List Opt} :
    extFieldsOK cur (o :: l) = true ↔
      o.number - cur ≤ 65803 ∧ lengthOK o = true ∧ extFieldsOK o.number l = true := by
  simp [extFieldsOK, Bool.and_eq_true, and_assoc]

/-- One fully encoded option entry, ready to be consumed by the decoder. -/
theorem encodeOne_spec {cur : Nat} {o : Opt}
    (hsort : cur ≤ o.number) (hdelta : o.number - cur ≤ 65803)
    (hw : optWF o = true) (hbz : blockNonzero o = true) (hlen : lengthOK o = true) :
    ∃ dn ln dext lext body,
      Options.encodeOne cur o =
        .ok (((dn % 16) * 16 + ln % 16) :: (dext ++ lext ++ body)) ∧
      dn ≤ 14 ∧ ln ≤ 14 ∧
      (∀ rest, Options.readExtendedFieldValue dn (dext ++ rest) =
        .ok (o.number - cur, rest)) ∧
      (∀ rest, Options.readExtendedFieldValue ln (lext ++ rest) =
        .ok (body.length, rest)) ∧
      kindDecode (option_formats o.number) body = o.value := by
  obtain ⟨len, body, hl, he, hlb, hkd⟩ := value_roundtrip hw hbz
  have hd0 : (0 : Int) ≤ (o.number : Int) - cur := by omega
  have hd1 : (o.number : Int) - cur ≤ 65803 := by omega
  obtain ⟨dn, dext, hwd, _⟩ := writeExt_ok_of_range hd0 hd1
  obtain ⟨hdn14, _, _, _, hrd⟩ := writeExt_ok_spec hwd
  have hlen2 : len ≤ 65803 := by
    unfold lengthOK at hlen
    rw [hl] at hlen
    simpa using hlen
  obtain ⟨ln, lext, hwl, _⟩ :=
    writeExt_ok_of_range (v := (len : Int)) (by omega) (by omega)
  obtain ⟨hln14, _, _, _, hrl⟩ := writeExt_ok_spec hwl
  refine ⟨dn, ln, dext, lext, body, encodeOne_eq hwd hl hwl he, hdn14, hln14,
    ?_, ?_, hkd⟩
  · intro rest
    have h := hrd rest
    have e : ((o.number : Int) - cur).toNat = o.number - cur := by omega
    rw [e] at h
    exact h
  · intro rest
    have h := hrl rest
    have e : ((len : Int)).toNat = body.length := by omega
    rw [e] at h
    exact h

/-- The encode loop succeeds on a sorted, well-formed, in-range option list
and its output stream decodes back to exactly those options, appended in
order, with any trailing bytes handed on to the continuation. -/
theorem roundtrip_loop (l : List Opt) : ∀ (cur : Nat),
    sortedFrom cur l = true →
    (∀ x ∈ l, optWF x = true ∧ blockNonzero x = true) →
    extFieldsOK cur l = true →
    ∃ bs, Options.encodeLoop cur l = .ok bs ∧
      ∀ (acc : Options) (tail : List Nat),
        Options.decodeLoop cur acc (bs ++ tail) =
          Options.decodeLoop (endNumber cur l) (addAll acc l) tail := by
  induction l with
  | nil =>
    intro cur _ _ _
    exact ⟨[], rfl, fun acc tail => by simp [addAll, endNumber]⟩
  | cons o l ih =>
    intro cur hsort hwf hext
    rcases sortedFrom_cons.mp hsort with ⟨hcur, hsort2⟩
    rcases extFieldsOK_cons.mp hext with ⟨hd, hlo, hext2⟩
    obtain ⟨dn, ln, dext, lext, body, heo, hdn, hln, hrd, hrl, hkd⟩ :=
      encodeOne_spec hcur hd (hwf o (List.mem_cons_self _ _)).1
        (hwf o (List.mem_cons_self _ _)).2 hlo
    obtain ⟨bs2, hloop, hdec⟩ :=
      ih o.number hsort2 (fun x hx => hwf x (List.mem_cons_of_mem _ hx)) hext2
    refine ⟨_, encodeLoop_cons_ok heo hloop, ?_⟩
    intro acc tail
    obtain ⟨hn1, hn2, hn255⟩ := header_nibbles hdn hln
    simp only [List.cons_append, List.append_assoc]
    have h1 : Options.readExtendedFieldValue
        (((dn % 16) * 16 + ln % 16) / 16 % 16)
        (dext ++ (lext ++ (body ++ (bs2 ++ tail)))) =
        .ok (o.number - cur, lext ++ (body ++ (bs2 ++ tail))) := by
      rw [hn1]
      exact hrd _
    have h2 : Options.readExtendedFieldValue
        (((dn % 16) * 16 + ln % 16) % 16)
        (lext ++ (body ++ (bs2 ++ tail))) =
        .ok (body.length, body ++ (bs2 ++ tail)) := by
      rw [hn2]
      exact hrl _
    rw [decodeLoop_step hn255 h1 h2]
    have hnum : cur + (o.number - cur) = o.number := by omega
    rw [hnum, List.take_left, List.drop_left, hkd]
    have hopt : (⟨o.number, o.value⟩ : Opt) = o := rfl
    rw [hopt]
    exact hdec (acc.addOption o) tail

/-- Claim C1's round trip, with the extra Block hypothesis: encoding a
well-formed Option Set succeeds and decoding the stream into a fresh
container reproduces every bucket, with an empty payload. -/
theorem encode_decode_roundtrip (o : Options)
    (h1 : optionsWF o = true)
    (h2 : ∀ x ∈ o.optionList, optWF x = true ∧ blockNonzero x = true)
    (h3 : extFieldsOK 0 o.optionList = true) :
    ∃ bs o2, o.encode = .ok bs ∧ emptyOptions.decode bs = .ok (o2, []) ∧
      ∀ n, o2.getOption n = o.getOption n := by
  obtain ⟨bs, he, hd⟩ := roundtrip_loop o.optionList 0 (optionList_sortedFrom h1) h2 h3
  refine ⟨bs, addAll emptyOptions o.optionList, he, ?_, fun n => decode_rebuild h1 n⟩
  have hh := hd emptyOptions []
  rw [List.append_nil] at hh
  unfold Options.decode
  rw [hh, decodeLoop_nil]

theorem packable_valueLength {o : Opt} (h : packable o = true) :
    ∃ len, valueLength o.value = .ok len := by
  cases hv : o.value with
  | opaq data => exact ⟨data.length, rfl⟩
  | str data => exact ⟨data.length, rfl⟩
  | uint v => exact ⟨UintOption.length v, rfl⟩
  | uintNone =>
    unfold packable at h
    rw [hv] at h
    cases h
  | block num m szx => exact ⟨BlockOption.length num, rfl⟩

theorem packable_valueEncode {o : Opt} (h : packable o = true) :
    ∃ body, valueEncode o.value = .ok body := by
  cases hv : o.value with
  | opaq data => exact ⟨data, rfl⟩
  | str data => exact ⟨data, rfl⟩
  | uint v =>
    unfold packable at h
    rw [hv] at h
    simp at h
    exact ⟨UintOption.encode v, by simp only [valueEncode]; rw [if_pos h]⟩
  | uintNone =>
    unfold packable at h
    rw [hv] at h
    cases h
  | block num m szx =>
    unfold packable at h
    rw [hv] at h
    simp at h
    exact ⟨BlockOption.encode num m szx, by simp only [valueEncode]; rw [if_pos h]⟩

/-- With 32-bit-packable values, the only error `encodeOne` can raise is the
range error of `writeExtendedFieldValue`. -/
theorem encodeOne_err_kind {cur : Nat} {o : Opt} {e : EncErr}
    (hp : packable o = true) (h : Options.encodeOne cur o = .error e) :
    e = .rangeError := by
  obtain ⟨len, hl⟩ := packable_valueLength hp
  obtain ⟨body, hb⟩ := packable_valueEncode hp
  cases hw1 : Options.writeExtendedFieldValue ((o.number : Int) - cur) with
  | error e1 =>
    rw [encodeOne_err_delta hw1] at h
    cases h
    exact writeExt_error_kind hw1
  | ok p =>
    obtain ⟨dn, dext⟩ := p
    cases hw2 : Options.writeExtendedFieldValue (len : Int) with
    | error e2 =>
      rw [encodeOne_err_lenwrite hw1 hl hw2] at h
      cases h
      exact writeExt_error_kind hw2
    | ok p2 =>
      obtain ⟨ln, lext⟩ := p2
      rw [encodeOne_eq hw1 hl hw2 hb] at h
      cases h

/-- If any delta or length along the list is out of range, the encode loop
fails with the range error (values assumed 32-bit packable, so no other
error can fire first). -/
theorem encodeLoop_range {l : List Opt} : ∀ cur,
    (∀ x ∈ l, packable x = true) → extFieldsOK cur l = false →
    Options.encodeLoop cur l = .error .rangeError := by
  induction l with
  | nil =>
    intro cur _ hext
    cases hext
  | cons o l ih =>
    intro cur hp hext
    obtain ⟨len, hl⟩ := packable_valueLength (hp o (List.mem_cons_self _ _))
    obtain ⟨body, hb⟩ := packable_valueEncode (hp o (List.mem_cons_self _ _))
    by_cases hd : o.number - cur ≤ 65803
    · by_cases hlo : lengthOK o = true
      · have hext2 : extFieldsOK o.number l = false := by
          simp [extFieldsOK, hd, hlo] at hext
          exact hext
        cases he : Options.encodeOne cur o with
        | error e =>
          have hk := encodeOne_err_kind (hp o (List.mem_cons_self _ _)) he
          subst hk
          exact encodeLoop_cons_err1 he
        | ok chunk =>
          exact encodeLoop_cons_err2 he
            (ih o.number (fun x hx => hp x (List.mem_cons_of_mem _ hx)) hext2)
      · have hlen : 65803 < len := by
          unfold lengthOK at hlo
          rw [hl] at hlo
          simp at hlo
          omega
        have hw2 : Options.writeExtendedFieldValue (len : Int) = .error .rangeError :=
          writeExt_err (Or.inr (by omega))
        cases hw1 : Options.writeExtendedFieldValue ((o.number : Int) - cur) with
        | error e1 =>
          have hk := writeExt_error_kind hw1
          subst hk
          exact encodeLoop_cons_err1 (encodeOne_err_delta hw1)
        | ok p =>
          obtain ⟨dn, dext⟩ := p
          exact encodeLoop_cons_err1 (encodeOne_err_lenwrite hw1 hl hw2)
    · have hdelta : (65804 : Int) ≤ (o.number : Int) - cur := by omega
      have hw1 := writeExt_err (Or.inr hdelta)
      exact encodeLoop_cons_err1 (encodeOne_err_delta hw1)

theorem optionsWF_empty : optionsWF emptyOptions = true := rfl

theorem optionsWF_setUriPath {o o2 : Options} {a : SegArg}
    (h : optionsWF o = true) (hs : o.setUriPath a = .ok o2) : optionsWF o2 = true := by
  cases a with
  | scalar s => cases hs
  | seq l =>
    cases hs
    exact optionsWF_addAll _ (optionsWF_deleteOption _ h)

theorem optionsWF_setUriQuery {o o2 : Options} {a : SegArg}
    (h : optionsWF o = true) (hs : o.setUriQuery a = .ok o2) : optionsWF o2 = true := by
  cases a with
  | scalar s => cases hs
  | seq l =>
    cases hs
    exact optionsWF_addAll _ (optionsWF_deleteOption _ h)

theorem optionsWF_setLocationPath {o o2 : Options} {a : SegArg}
    (h : optionsWF o = true) (hs : o.setLocationPath a = .ok o2) :
    optionsWF o2 = true := by
  cases a with
  | scalar s => cases hs
  | seq l =>
    cases hs
    exact optionsWF_addAll _ (optionsWF_deleteOption _ h)

theorem optionsWF_setBlock2 {o : Options} (t : Nat × Bool × Nat)
    (h : optionsWF o = true) : optionsWF (o.setBlock2 t) = true :=
  optionsWF_addOption _ (optionsWF_deleteOption _ h)

theorem optionsWF_setBlock1 {o : Options} (t : Nat × Bool × Nat)
    (h : optionsWF o = true) : optionsWF (o.setBlock1 t) = true :=
  optionsWF_addOption _ (optionsWF_deleteOption _ h)

theorem optionsWF_setContentFormat {o : Options} (x : Option Nat)
    (h : optionsWF o = true) : optionsWF (o.setContentFormat x) = true :=
  optionsWF_addOption _ (optionsWF_deleteOption _ h)

theorem optionsWF_setObserve {o : Options} (x : Option Nat)
    (h : optionsWF o = true) : optionsWF (o.setObserve x) = true := by
  cases x with
  | none => exact optionsWF_deleteOption _ h
  | some v => exact optionsWF_addOption _ (optionsWF_deleteOption _ h)

theorem optionsWF_setAccept {o : Options} (x : Option Nat)
    (h : optionsWF o = true) : optionsWF (o.setAccept x) = true := by
  cases x with
  | none => exact optionsWF_deleteOption _ h
  | some v => exact optionsWF_addOption _ (optionsWF_deleteOption _ h)

theorem optionsWF_setETag {o : Options} (x : Option (List Nat))
    (h : optionsWF o = true) : optionsWF (o.setETag x) = true := by
  cases x with
  | none => exact optionsWF_deleteOption _ h
  | some t => exact optionsWF_addOption _ (optionsWF_deleteOption _ h)

theorem optionsWF_setETags {o : Options} (x : List (List Nat))
    (h : optionsWF o = true) : optionsWF (o.setETags x) = true :=
  optionsWF_addAll _ (optionsWF_deleteOption _ h)

theorem reachable_WF {o : Options} (h : Reachable o) : optionsWF o = true := by
  induction h with
  | empty => rfl
  | add opt _ ih => exact optionsWF_addOption opt ih
  | delete n _ ih => exact optionsWF_deleteOption n ih
  | decodeOk _ hd ih => exact optionsWF_decodeLoop ih hd
  | uriPath _ hs ih => exact optionsWF_setUriPath ih hs
  | uriQuery _ hs ih => exact optionsWF_setUriQuery ih hs
  | locationPath _ hs ih => exact optionsWF_setLocationPath ih hs
  | block2 t _ ih => exact optionsWF_setBlock2 t ih
  | block1 t _ ih => exact optionsWF_setBlock1 t ih
  | contentFormat x _ ih => exact optionsWF_setContentFormat x ih
  | observe x _ ih => exact optionsWF_setObserve x ih
  | accept x _ ih => exact optionsWF_setAccept x ih
  | etag x _ ih => exact optionsWF_setETag x ih
  | etags x _ ih => exact optionsWF_setETags x ih

theorem option_formats_default (n : Nat)
    (h : n ∉ ([3, 6, 7, 8, 11, 12, 14, 15, 17, 20, 23, 27, 28, 35, 39, 60] : List Nat)) :
    option_formats n = .opaq := by
  simp only [List.mem_cons, not_or] at h
  unfold option_formats
  split
  all_goals first
    | rfl
    | (rename_i he; exfalso; omega)

theorem set_single_bucket (o : Options) (N : Nat) (opt : Opt) (h : opt.number = N) :
    ((o.deleteOption N).addOption opt).getOption N = some [opt] := by
  rw [getOption_addOption, if_pos h, getOption_deleteOption, if_pos rfl]
  rfl

/-- Semantics of the path-like setters: the target bucket is replaced by one
String option per segment, in order, and every other bucket is untouched. -/
theorem setPath_semantics (o : Options) (N : Nat) (l : List (List Nat)) :
    (addAll (o.deleteOption N) (l.map fun s => ⟨N, .str s⟩)).getOption N =
      (if l.isEmpty then none else some (l.map fun s => (⟨N, .str s⟩ : Opt))) ∧
    ∀ m, m ≠ N →
      (addAll (o.deleteOption N) (l.map fun s => ⟨N, .str s⟩)).getOption m =
        o.getOption m := by
  have hdelN : (o.deleteOption N).getOption N = none := by
    rw [getOption_deleteOption, if_pos rfl]
  have hfilN : (l.map fun s => (⟨N, .str s⟩ : Opt)).filter (fun x => x.number == N) =
      l.map fun s => (⟨N, .str s⟩ : Opt) := by
    apply List.filter_eq_self.mpr
    intro x hx
    rcases List.mem_map.mp hx with ⟨s, _, he⟩
    rw [← he]
    simp
  constructor
  · rw [getOption_addAll, hdelN, hfilN]
    cases l with
    | nil => simp
    | cons s l => simp
  · intro m hm
    have hdelm : (o.deleteOption N).getOption m = o.getOption m := by
      rw [getOption_deleteOption, if_neg hm]
    have hfilm : (l.map fun s => (⟨N, .str s⟩ : Opt)).filter
        (fun x => x.number == m) = [] := by
      apply List.filter_eq_nil_iff.mpr
      intro x hx
      rcases List.mem_map.mp hx with ⟨s, _, he⟩
      rw [← he]
      simp
      omega
    rw [getOption_addAll, hdelm, hfilm]
    rcases hg : o.getOption m with _ | b
    · simp
    · simp

/-- C1 (amended): for every Option Set satisfying the container invariant,
with every value encodable under the registry class of its own number, all
deltas and lengths in the range accepted by the extended-field encoder —
and, as the amendment forced by `C1_counterexample`, every Block value's
packed integer nonzero — encoding succeeds and decoding the stream into a
fresh container reconstructs an equivalent set: the same option numbers and
the same per-number ordered sequence of option values, with empty payload. -/
theorem C1_roundtrip_amended (o : Options)
    (h1 : optionsWF o = true)
    (h2 : ∀ x ∈ o.optionList, optWF x = true ∧ blockNonzero x = true)
    (h3 : extFieldsOK 0 o.optionList = true) :
    ∃ bs o2, o.encode = .ok bs ∧ emptyOptions.decode bs = .ok (o2, []) ∧
      ∀ n, o2.getOption n = o.getOption n :=
  encode_decode_roundtrip o h1 h2 h3

/-- C1 witness: a Content-Format 40 option and a Uri-Path segment round
trip. -/
theorem C1_roundtrip_witness :
    ∃ bs o2,
      Options.encode ⟨[(12, [⟨12, .uint 40⟩]), (11, [⟨11, .str [97]⟩])]⟩ = .ok bs ∧
      emptyOptions.decode bs = .ok (o2, []) ∧
      ∀ n, o2.getOption n =
        Options.getOption ⟨[(12, [⟨12, .uint 40⟩]), (11, [⟨11, .str [97]⟩])]⟩ n :=
  C1_roundtrip_amended _ (by decide) (by decide) (by decide)

/-- C1 (counterexample): the set with Block2 value (num 0, more false,
szx 0) and Size2 value 0 meets every encodability hypothesis of the claim
(registry-matching classes, deltas and lengths in range), yet decoding its
encoding loses option number 28 entirely and changes option 23's value,
because `BlockOption._length` reports 1 while `BlockOption.encode` emits no
bytes, so the decoder consumes the next entry's header byte as the Block
value. -/
theorem C1_counterexample :
    optionsWF ⟨[(23, [⟨23, .block 0 false 0⟩]), (28, [⟨28, .uint 0⟩])]⟩ = true ∧
    (∀ x ∈ Options.optionList ⟨[(23, [⟨23, .block 0 false 0⟩]), (28, [⟨28, .uint 0⟩])]⟩,
      optWF x = true) ∧
    extFieldsOK 0
      (Options.optionList ⟨[(23, [⟨23, .block 0 false 0⟩]), (28, [⟨28, .uint 0⟩])]⟩) = true ∧
    Options.encode ⟨[(23, [⟨23, .block 0 false 0⟩]), (28, [⟨28, .uint 0⟩])]⟩ =
      .ok [209, 10, 80] ∧
    emptyOptions.decode [209, 10, 80] =
      .ok (⟨[(23, [⟨23, .block 5 false 0⟩])]⟩, []) ∧
    Options.getOption ⟨[(23, [⟨23, .block 0 false 0⟩]), (28, [⟨28, .uint 0⟩])]⟩ 28 =
      some [⟨28, .uint 0⟩] ∧
    Options.getOption ⟨[(23, [⟨23, .block 5 false 0⟩])]⟩ 28 = none := by
  refine ⟨by decide, by decide, by decide, rfl, ?_, rfl, rfl⟩
  unfold Options.decode
  rw [decodeLoop_step (by decide)
    (show Options.readExtendedFieldValue (209 / 16 % 16) [10, 80] =
      .ok (23, [80]) from rfl)
    (show Options.readExtendedFieldValue (209 % 16) [80] =
      .ok (1, [80]) from rfl)]
  show Options.decodeLoop 23 ⟨[(23, [⟨23, OptVal.block 5 false 0⟩])]⟩ [] = _
  rw [decodeLoop_nil]

/-- C2 (counterexample): at Block value (num 0, more false, szx 0) the
`_length` property reports 1 byte while `encode()` emits none, refuting the
claim that the reported length always equals the emitted byte count. -/
theorem C2_counterexample :
    BlockOption.length 0 = 1 ∧ BlockOption.encode 0 false 0 = [] ∧
    BlockOption.length 0 ≠ (BlockOption.encode 0 false 0).length :=
  ⟨rfl, rfl, by decide⟩

/-- C2 (amended): for every Block value with num < 2^28 and szx < 8 whose
packed integer (num<<4)|(m?8:0)|szx is nonzero, the reported `_length`
equals the byte count of the encoding of the full packed integer, so the
flag and size-exponent bits are never dropped from the byte count. -/
theorem C2_length_amended {num : Nat} (m : Bool) {szx : Nat}
    (hn : num < 268435456) (hs : szx < 8)
    (hnz : BlockOption.pack num m szx ≠ 0) :
    BlockOption.length num = (BlockOption.encode num m szx).length :=
  blockLength_spec m hn hs hnz

/-- C2 witness at Block value (num 5, more true, szx 6). -/
theorem C2_length_witness :
    BlockOption.length 5 = (BlockOption.encode 5 true 6).length :=
  C2_length_amended true (by decide) (by decide) (by decide)

/-- C3: for every v in [0, 65803], the extended-field encoder accepts v,
emits the extension-byte count of its range (0 for 0-12, 1 for 13-268, 2 for
269-65803), and the decoder applied to the produced nibble and extension
bytes returns v, consuming exactly the extension bytes. -/
theorem C3_ext_roundtrip (v : Nat) (hv : v ≤ 65803) :
    ∃ nib ext, Options.writeExtendedFieldValue (v : Int) = .ok (nib, ext) ∧
      ext.length = (if v < 13 then 0 else if v < 269 then 1 else 2) ∧
      ∀ rest, Options.readExtendedFieldValue nib (ext ++ rest) = .ok (v, rest) := by
  obtain ⟨nib, ext, hw, hlen⟩ :=
    writeExt_ok_of_range (v := (v : Int)) (by omega) (by omega)
  obtain ⟨_, _, _, _, hread⟩ := writeExt_ok_spec hw
  refine ⟨nib, ext, hw, ?_, fun rest => ?_⟩
  · rw [hlen]
    by_cases h13 : v < 13
    · rw [if_pos (by exact_mod_cast h13), if_pos h13]
    · rw [if_neg (by exact_mod_cast h13), if_neg h13]
      by_cases h269 : v < 269
      · rw [if_pos (by exact_mod_cast h269), if_pos h269]
      · rw [if_neg (by exact_mod_cast h269), if_neg h269]
  · have h := hread rest
    rw [show ((v : Nat) : Int).toNat = v from by omega] at h
    exact h

/-- C3 witness, one value in each of the three ranges. -/
theorem C3_ext_witness :
    (∃ nib ext, Options.writeExtendedFieldValue ((5 : Nat) : Int) = .ok (nib, ext) ∧
      ext.length = (if (5 : Nat) < 13 then 0 else if (5 : Nat) < 269 then 1 else 2) ∧
      ∀ rest, Options.readExtendedFieldValue nib (ext ++ rest) = .ok (5, rest)) ∧
    (∃ nib ext, Options.writeExtendedFieldValue ((100 : Nat) : Int) = .ok (nib, ext) ∧
      ext.length = (if (100 : Nat) < 13 then 0 else if (100 : Nat) < 269 then 1 else 2) ∧
      ∀ rest, Options.readExtendedFieldValue nib (ext ++ rest) = .ok (100, rest)) ∧
    (∃ nib ext, Options.writeExtendedFieldValue ((1000 : Nat) : Int) = .ok (nib, ext) ∧
      ext.length = (if (1000 : Nat) < 13 then 0 else if (1000 : Nat) < 269 then 1 else 2) ∧
      ∀ rest, Options.readExtendedFieldValue nib (ext ++ rest) = .ok (1000, rest)) :=
  ⟨C3_ext_roundtrip 5 (by decide), C3_ext_roundtrip 100 (by decide),
    C3_ext_roundtrip 1000 (by decide)⟩

/-- C4: the extended-field encoder fails with the RangeError kind exactly
outside [0, 65803]; consequently, for an Option Set whose values are 32-bit
packable, `encode()` fails with the RangeError kind whenever some delta or
length along the option list is out of range. -/
theorem C4_range_error :
    (∀ v : Int, v < 0 ∨ 65804 ≤ v →
      Options.writeExtendedFieldValue v = .error .rangeError) ∧
    (∀ v : Int, 0 ≤ v → v ≤ 65803 →
      ∃ p, Options.writeExtendedFieldValue v = .ok p) ∧
    (∀ o : Options, (∀ x ∈ o.optionList, packable x = true) →
      extFieldsOK 0 o.optionList = false → o.encode = .error .rangeError) := by
  refine ⟨fun v h => writeExt_err h, fun v h0 h1 => ?_, fun o hp hext => ?_⟩
  · obtain ⟨nib, ext, hw, _⟩ := writeExt_ok_of_range h0 h1
    exact ⟨(nib, ext), hw⟩
  · unfold Options.encode
    exact encodeLoop_range 0 hp hext

/-- C4 witness: a negative value, an overlarge value, an accepted value, and
an Option Set whose single delta (70000) is out of range. -/
theorem C4_witness :
    Options.writeExtendedFieldValue (-1) = .error .rangeError ∧
    Options.writeExtendedFieldValue 70000 = .error .rangeError ∧
    (∃ p, Options.writeExtendedFieldValue 42 = .ok p) ∧
    Options.encode ⟨[(70000, [⟨70000, .uint 0⟩])]⟩ = .error .rangeError :=
  ⟨C4_range_error.1 (-1) (Or.inl (by decide)),
    C4_range_error.1 70000 (Or.inr (by decide)),
    C4_range_error.2.1 42 (by decide) (by decide),
    C4_range_error.2.2 _ (by decide) (by decide)⟩

/-- C5: `UintOption.decode` accumulates big-endian with 0 for empty input;
for every value below 2^32, `UintOption.encode` round-trips through decode,
has the `_length` property as its byte count, never starts with a zero byte,
and encodes 0 as the empty string; `_length` is `ceil(bit_length/8)`. -/
theorem C5_uint_codec :
    UintOption.decode [] = 0 ∧
    (∀ (bs : List Nat) (b : Nat),
      UintOption.decode (bs ++ [b]) = UintOption.decode bs * 256 + b) ∧
    (∀ v : Nat, UintOption.length v = (bitLength v + 7) / 8) ∧
    (∀ v : Nat, v < 4294967296 →
      UintOption.decode (UintOption.encode v) = v ∧
      UintOption.length v = (UintOption.encode v).length ∧
      ¬ (UintOption.encode v).head? = some 0 ∧
      (v = 0 → UintOption.encode v = [])) :=
  ⟨rfl, UintOption.decode_append, UintOption.length_eq_ceil, fun v hv =>
    ⟨(uintEncode_spec hv).1, (uintEncode_spec hv).2.1.symm,
      (uintEncode_spec hv).2.2.1, (uintEncode_spec hv).2.2.2⟩⟩

/-- C5 witness at the spec's example values 0, 255 and 65536. -/
theorem C5_uint_witness :
    (UintOption.decode (UintOption.encode 0) = 0 ∧
      UintOption.length 0 = (UintOption.encode 0).length ∧
      ¬ (UintOption.encode 0).head? = some 0 ∧
      ((0 : Nat) = 0 → UintOption.encode 0 = [])) ∧
    (UintOption.decode (UintOption.encode 255) = 255 ∧
      UintOption.length 255 = (UintOption.encode 255).length ∧
      ¬ (UintOption.encode 255).head? = some 0 ∧
      ((255 : Nat) = 0 → UintOption.encode 255 = [])) ∧
    (UintOption.decode (UintOption.encode 65536) = 65536 ∧
      UintOption.length 65536 = (UintOption.encode 65536).length ∧
      ¬ (UintOption.encode 65536).head? = some 0 ∧
      ((65536 : Nat) = 0 → UintOption.encode 65536 = [])) :=
  ⟨C5_uint_codec.2.2.2 0 (by decide), C5_uint_codec.2.2.2 255 (by decide),
    C5_uint_codec.2.2.2 65536 (by decide)⟩

/-- C6: the decode loop stops immediately at a 0xFF byte found at an entry
boundary and returns the bytes after the marker as the payload; exhausted
input yields an empty payload; and the spec's example (one Content-Format 40
option, then 0xFF, then "hello") decodes to the bucket 12 -> [40] with
payload "hello". -/
theorem C6_payload_marker :
    (∀ (n : Nat) (o : Options) (rest : List Nat),
      Options.decodeLoop n o (255 :: rest) = .ok (o, rest)) ∧
    (∀ (n : Nat) (o : Options), Options.decodeLoop n o [] = .ok (o, [])) ∧
    emptyOptions.decode [193, 40, 255, 104, 101, 108, 108, 111] =
      .ok (⟨[(12, [⟨12, .uint 40⟩])]⟩, [104, 101, 108, 108, 111]) := by
  refine ⟨decodeLoop_marker, decodeLoop_nil, ?_⟩
  unfold Options.decode
  rw [decodeLoop_step (by decide)
    (show Options.readExtendedFieldValue (193 / 16 % 16) [40, 255, 104, 101, 108, 108, 111] =
      .ok (12, [40, 255, 104, 101, 108, 108, 111]) from rfl)
    (show Options.readExtendedFieldValue (193 % 16) [40, 255, 104, 101, 108, 108, 111] =
      .ok (1, [40, 255, 104, 101, 108, 108, 111]) from rfl)]
  show Options.decodeLoop 12 ⟨[(12, [⟨12, OptVal.uint 40⟩])]⟩
    [255, 104, 101, 108, 108, 111] = _
  rw [decodeLoop_marker]

/-- C7: the registry maps exactly the sixteen listed numbers to their
classes, every unlisted number to the Opaque class, and decoding a value at
an unlisted number always succeeds, storing the raw bytes unchanged. -/
theorem C7_registry :
    (option_formats 3 = .str ∧ option_formats 6 = .uint ∧ option_formats 7 = .uint ∧
      option_formats 8 = .str ∧ option_formats 11 = .str ∧ option_formats 12 = .uint ∧
      option_formats 14 = .uint ∧ option_formats 15 = .str ∧ option_formats 17 = .uint ∧
      option_formats 20 = .str ∧ option_formats 23 = .block ∧ option_formats 27 = .block ∧
      option_formats 28 = .uint ∧ option_formats 35 = .str ∧ option_formats 39 = .str ∧
      option_formats 60 = .uint) ∧
    (∀ n, n ∉ ([3, 6, 7, 8, 11, 12, 14, 15, 17, 20, 23, 27, 28, 35, 39, 60] : List Nat) →
      option_formats n = .opaq) ∧
    (∀ (n : Nat) (bs : List Nat),
      n ∉ ([3, 6, 7, 8, 11, 12, 14, 15, 17, 20, 23, 27, 28, 35, 39, 60] : List Nat) →
      kindDecode (option_formats n) bs = .opaq bs) := by
  refine ⟨by decide, option_formats_default, fun n bs h => ?_⟩
  rw [option_formats_default n h]
  rfl

/-- C7 witness at the spec's unregistered number 9999. -/
theorem C7_registry_witness :
    option_formats 9999 = .opaq ∧
    kindDecode (option_formats 9999) [1, 2] = .opaq [1, 2] :=
  ⟨C7_registry.2.1 9999 (by decide), C7_registry.2.2 9999 [1, 2] (by decide)⟩

/-- C8: each path-like setter (Uri-Path, Uri-Query, Location-Path) rejects a
single scalar text value with the InvalidArgument kind, and given a sequence
replaces the bucket entirely with one String option per element in the
sequence's order, leaving all other buckets unchanged. -/
theorem C8_path_setters :
    (∀ (o : Options) (s : List Nat),
      o.setUriPath (.scalar s) = .error .invalidArgument) ∧
    (∀ (o : Options) (l : List (List Nat)), ∃ o2,
      o.setUriPath (.seq l) = .ok o2 ∧
      o2.getOption URI_PATH =
        (if l.isEmpty then none else some (l.map fun s => ⟨URI_PATH, .str s⟩)) ∧
      ∀ m, m ≠ URI_PATH → o2.getOption m = o.getOption m) ∧
    (∀ (o : Options) (s : List Nat),
      o.setUriQuery (.scalar s) = .error .invalidArgument) ∧
    (∀ (o : Options) (l : List (List Nat)), ∃ o2,
      o.setUriQuery (.seq l) = .ok o2 ∧
      o2.getOption URI_QUERY =
        (if l.isEmpty then none else some (l.map fun s => ⟨URI_QUERY, .str s⟩)) ∧
      ∀ m, m ≠ URI_QUERY → o2.getOption m = o.getOption m) ∧
    (∀ (o : Options) (s : List Nat),
      o.setLocationPath (.scalar s) = .error .invalidArgument) ∧
    (∀ (o : Options) (l : List (List Nat)), ∃ o2,
      o.setLocationPath (.seq l) = .ok o2 ∧
      o2.getOption LOCATION_PATH =
        (if l.isEmpty then none else some (l.map fun s => ⟨LOCATION_PATH, .str s⟩)) ∧
      ∀ m, m ≠ LOCATION_PATH → o2.getOption m = o.getOption m) :=
  ⟨fun _ _ => rfl,
    fun o l => ⟨_, rfl, (setPath_semantics o URI_PATH l).1,
      (setPath_semantics o URI_PATH l).2⟩,
    fun _ _ => rfl,
    fun o l => ⟨_, rfl, (setPath_semantics o URI_QUERY l).1,
      (setPath_semantics o URI_QUERY l).2⟩,
    fun _ _ => rfl,
    fun o l => ⟨_, rfl, (setPath_semantics o LOCATION_PATH l).1,
      (setPath_semantics o LOCATION_PATH l).2⟩⟩

/-- C8 witness: the scalar text "a/b" is rejected, and the two-segment
sequence ["a", "b"] replaces the Uri-Path bucket. -/
theorem C8_path_witness :
    emptyOptions.setUriPath (.scalar [97, 47, 98]) = .error .invalidArgument ∧
    (∃ o2, emptyOptions.setUriPath (.seq [[97], [98]]) = .ok o2 ∧
      o2.getOption URI_PATH =
        (if ([[97], [98]] : List (List Nat)).isEmpty then none
          else some (([[97], [98]] : List (List Nat)).map fun s => ⟨URI_PATH, .str s⟩)) ∧
      ∀ m, m ≠ URI_PATH → o2.getOption m = emptyOptions.getOption m) :=
  ⟨C8_path_setters.1 emptyOptions [97, 47, 98],
    C8_path_setters.2.1 emptyOptions [[97], [98]]⟩

/-- C9 (counterexample): calling the Content-Format setter with None does
not remove the bucket — the source has no None guard there, so one
`UintOption` holding Python `None` is stored and `getOption` still returns a
bucket. -/
theorem C9_counterexample :
    (emptyOptions.setContentFormat none).getOption CONTENT_FORMAT =
      some [⟨CONTENT_FORMAT, .uintNone⟩] ∧
    (emptyOptions.setContentFormat none).getOption CONTENT_FORMAT ≠ none :=
  ⟨rfl, by decide⟩

/-- C9 (amended): for Observe and Accept the setter with None removes the
bucket and the getter then returns None, while a setter call with a value
leaves exactly one Uint option in the bucket, which the getter returns.  The
Content-Format setter with None instead stores a single `UintOption` holding
None (the getter still returns None because that stored value is None), and
with a value it behaves like Observe/Accept.  Max-Age, Size1, Size2 and
Uri-Port have no accessors in the source. -/
theorem C9_single_uint_accessors :
    (∀ o : Options, (o.setObserve none).getOption OBSERVE = none ∧
      (o.setObserve none).getObserve = none) ∧
    (∀ (o : Options) (v : Nat),
      (o.setObserve (some v)).getOption OBSERVE = some [⟨OBSERVE, .uint v⟩] ∧
      (o.setObserve (some v)).getObserve = some (.uint v)) ∧
    (∀ o : Options, (o.setAccept none).getOption ACCEPT = none ∧
      (o.setAccept none).getAccept = none) ∧
    (∀ (o : Options) (v : Nat),
      (o.setAccept (some v)).getOption ACCEPT = some [⟨ACCEPT, .uint v⟩] ∧
      (o.setAccept (some v)).getAccept = some (.uint v)) ∧
    (∀ o : Options,
      (o.setContentFormat none).getOption CONTENT_FORMAT =
        some [⟨CONTENT_FORMAT, .uintNone⟩] ∧
      (o.setContentFormat none).getContentFormat = some .uintNone) ∧
    (∀ (o : Options) (v : Nat),
      (o.setContentFormat (some v)).getOption CONTENT_FORMAT =
        some [⟨CONTENT_FORMAT, .uint v⟩] ∧
      (o.setContentFormat (some v)).getContentFormat = some (.uint v)) := by
  refine ⟨fun o => ?_, fun o v => ?_, fun o => ?_, fun o v => ?_, fun o => ?_,
    fun o v => ?_⟩
  · have h : (o.setObserve none).getOption OBSERVE = none := by
      show (o.deleteOption OBSERVE).getOption OBSERVE = none
      rw [getOption_deleteOption, if_pos rfl]
    exact ⟨h, by unfold Options.getObserve; rw [h]; rfl⟩
  · have h : (o.setObserve (some v)).getOption OBSERVE = some [⟨OBSERVE, .uint v⟩] :=
      set_single_bucket o OBSERVE _ rfl
    exact ⟨h, by unfold Options.getObserve; rw [h]; rfl⟩
  · have h : (o.setAccept none).getOption ACCEPT = none := by
      show (o.deleteOption ACCEPT).getOption ACCEPT = none
      rw [getOption_deleteOption, if_pos rfl]
    exact ⟨h, by unfold Options.getAccept; rw [h]; rfl⟩
  · have h : (o.setAccept (some v)).getOption ACCEPT = some [⟨ACCEPT, .uint v⟩] :=
      set_single_bucket o ACCEPT _ rfl
    exact ⟨h, by unfold Options.getAccept; rw [h]; rfl⟩
  · have h : (o.setContentFormat none).getOption CONTENT_FORMAT =
        some [⟨CONTENT_FORMAT, .uintNone⟩] :=
      set_single_bucket o CONTENT_FORMAT _ rfl
    exact ⟨h, by unfold Options.getContentFormat; rw [h]; rfl⟩
  · have h : (o.setContentFormat (some v)).getOption CONTENT_FORMAT =
        some [⟨CONTENT_FORMAT, .uint v⟩] :=
      set_single_bucket o CONTENT_FORMAT _ rfl
    exact ⟨h, by unfold Options.getContentFormat; rw [h]; rfl⟩

/-- C10: every state reachable from the empty Option Set by adds, removes,
decodes and accessor setters keeps only non-empty buckets whose options all
carry the bucket's key as their number, and `optionList` yields the options
grouped by key in ascending number order. -/
theorem C10_invariant (o : Options) (h : Reachable o) :
    (∀ n b, o.getOption n = some b → b ≠ [] ∧ ∀ x ∈ b, x.number = n) ∧
    List.Sorted (· ≤ ·) (o.optionList.map Opt.number) := by
  have hw := reachable_WF h
  refine ⟨?_, sortedFrom_sorted (optionList_sortedFrom hw)⟩
  intro n b hg
  exact bucketWF_iff.mp (bucketsWF_mem hw (getBuckets_mem hg))

/-- C10 witness at a small concrete reachable state. -/
theorem C10_invariant_witness :
    (∀ n b, Options.getOption
        ((emptyOptions.addOption ⟨5, .uint 1⟩).addOption ⟨3, .str [97]⟩) n = some b →
      b ≠ [] ∧ ∀ x ∈ b, x.number = n) ∧
    List.Sorted (· ≤ ·)
      ((Options.optionList
        ((emptyOptions.addOption ⟨5, .uint 1⟩).addOption ⟨3, .str [97]⟩)).map Opt.number) :=
  C10_invariant _ (Reachable.add _ (Reachable.add _ Reachable.empty))
